import Mathlib

/-!
Shallow embedding of the `dbackup` incremental backup tool
(`go/lib/backup`: `backup.go`, `db.go`, `compare_db.go`, `recovery.go`,
`compression.go`, `helpers.go`).

Modelling conventions:
* Filesystem and object-store paths are lists of slash-free components
  (`Path`).  The empty list stands for `"."`, so `filepath.Join`
  becomes list append and `filepath.Rel base (base ++ s) = s`.
* Wall-clock times are naturals counting nanoseconds since the epoch.
  The manifest stores times at millisecond precision
  (`Format "2006-01-02 15:04:05.000"`), hence `msOfNs`.
* The content hasher (md5 in the source) is an external primitive; all
  definitions take an arbitrary `hashFn : List Nat → Nat`.
* SQLite is modelled as an in-order list of rows with a unique primary
  key maintained by upsert-in-place (`dbUpsert`), mirroring row order
  of a table scan.  `GetAllFiles` has no definition under the provided
  sources (only callers), see `dbGetAllFiles`.
* Object-store calls are synchronous and modelled on an association
  list; `ListObjectsV2` returns keys in an unspecified order per the
  adapter contract, modelled as store order.
-/

namespace Backup

/-- A filesystem or object-store path, as slash-free components.
`[]` stands for `"."`. -/
abbrev Path := List String

/-- A regular file in the local source tree: name, bytes, and
modification time in nanoseconds. -/
structure SrcFile where
  name : String
  content : List Nat
  modTimeNs : Nat
deriving Repr, DecidableEq

mutual

/-- A directory tree: the files at this level and the named
subdirectories, each in directory-listing order. -/
inductive FsTree where
  | node : List SrcFile → FsDirList → FsTree

/-- The subdirectories of one directory, in listing order. -/
inductive FsDirList where
  | nil : FsDirList
  | cons : String → FsTree → FsDirList → FsDirList

end

/-- The subdirectory list as a plain list of named trees. -/
def FsDirList.toList : FsDirList → List (String × FsTree)
  | .nil => []
  | .cons n t rest => (n, t) :: rest.toList

/-- Truncate a nanosecond timestamp to seconds
(`Time.Truncate(time.Second)` on a stat result). -/
def truncSecNs (t : Nat) : Nat := t / 1000000000

/-- Truncate a millisecond timestamp to seconds
(`Time.Truncate(time.Second)` on a manifest-stored time). -/
def truncSecMs (t : Nat) : Nat := t / 1000

/-- Millisecond part kept by the manifest serialization format
`2006-01-02 15:04:05.000`. -/
def msOfNs (t : Nat) : Nat := t / 1000000

/-- One row of the manifest table `files (path, mod_time, hash, batch)`. -/
structure DbRecord where
  path : Path
  modTimeMs : Nat
  hash : Nat
  batch : Path
deriving Repr, DecidableEq

/-- The manifest table contents, in row order. -/
abbrev DbState := List DbRecord

/-- `DB.GetFileInfo`: point lookup by primary key. -/
def getFileInfo (db : DbState) (p : Path) : Option DbRecord :=
  db.find? (fun r => r.path == p)

/-- `DB.MarkFile`'s `INSERT ... ON CONFLICT (path) DO UPDATE`: replaces
the existing row in place or appends a new one. -/
def dbUpsert (db : DbState) (r : DbRecord) : DbState :=
  if db.any (fun x => x.path == r.path) then
    db.map (fun x => if x.path == r.path then r else x)
  else db ++ [r]

/-- `DB.DeleteBatch`: `DELETE FROM files WHERE batch = ?`. -/
def dbDeleteBatch (db : DbState) (b : Path) : DbState :=
  db.filter (fun r => r.batch != b)

/-- `DB.GetFilesInBatch`: `SELECT path FROM files WHERE batch = ?`. -/
def dbFilesInBatch (db : DbState) (b : Path) : List Path :=
  (db.filter (fun r => r.batch == b)).map (fun r => r.path)

/-- Modelled from the spec: `DB.GetAllFiles` (`all_records()` in §4.1)
is called from `getFilesNotInBatches` and `downloadAndCompareDB` but
its definition is not among the provided sources; per the spec it
returns every `FileRecord` of the store, order unspecified. -/
def dbGetAllFiles (db : DbState) : List DbRecord := db

/-- `BatchMeta` of `db.go`. -/
structure BatchMeta where
  path : Path
  isSingleFile : Bool
deriving Repr, DecidableEq

/-- Distinct values in first-occurrence order, skipping values already
seen (the grouping keys of `GROUP BY batch`; SQL leaves the group
order unspecified). -/
def dedupFirstGo (seen : List Path) : List Path → List Path
  | [] => []
  | b :: rest =>
    if seen.contains b then dedupFirstGo seen rest
    else b :: dedupFirstGo (seen ++ [b]) rest

/-- Distinct values in first-occurrence order. -/
def dedupFirst (l : List Path) : List Path := dedupFirstGo [] l

/-- One output row of `GetExistingBatches` for group `b`:
`num_files` is the group size, `num_grouped_files` counts members with
`path ≠ batch`; a group with both kinds of member is the invariant
violation. -/
def batchMetaOf (db : DbState) (b : Path) : Except String BatchMeta :=
  let group := db.filter (fun r => r.batch == b)
  let numFiles := group.length
  let numGrouped := (group.filter (fun r => r.path != b)).length
  if 0 < numGrouped ∧ numGrouped ≠ numFiles then
    .error "detected a batch with multiple files, where one of the filenames matches the batch name"
  else .ok { path := b, isSingleFile := numGrouped == 0 }

/-- Row loop of `GetExistingBatches` over the grouped query results,
with the source's early error return. -/
def existingBatchesGo (db : DbState) : List Path → Except String (List BatchMeta)
  | [] => .ok []
  | b :: rest =>
    match batchMetaOf db b with
    | .error e => .error e
    | .ok m =>
      match existingBatchesGo db rest with
      | .error e => .error e
      | .ok ms => .ok (m :: ms)

/-- `DB.GetExistingBatches`: group the manifest by `batch` and classify
each group, failing on a mixed group. -/
def getExistingBatches (db : DbState) : Except String (List BatchMeta) :=
  existingBatchesGo db (dedupFirst (db.map (fun r => r.batch)))

/-- `backupOp` of the source (`backupOpNone`, `backupOpAdd`,
`backupOpChange`, `backupOpRemove`). -/
inductive BackupOp where
  | opNone | opAdd | opChange | opRemove
deriving Repr, DecidableEq

/-- `backupReason` of the source (`backupReasonNone`, `...New`,
`...Modtime`, `...Hash`). -/
inductive BackupReason where
  | rNone | rNew | rModtime | rHash
deriving Repr, DecidableEq

/-- `doesFileNeedBackup`: decide whether a file is dirty, given the
manifest row found at the queried key (the caller passes the path it
walked to).  The hash is computed whenever a row exists. -/
def doesFileNeedBackup (hashFn : List Nat → Nat) (db : DbState) (queryPath : Path)
    (f : SrcFile) : Bool × BackupOp × BackupReason :=
  match getFileInfo db queryPath with
  | none => (true, .opAdd, .rNew)
  | some fi =>
    let modTimeChanged : Bool := !(truncSecNs f.modTimeNs == truncSecMs fi.modTimeMs)
    let hashChanged : Bool := hashFn f.content != fi.hash
    if !modTimeChanged && !hashChanged then (false, .opNone, .rNone)
    else if hashChanged then (true, .opChange, .rHash)
    else (true, .opChange, .rModtime)

/-- `fileHasChangedBatch`: looks the file up under
`filepath.Join(root, path)` and reports whether its recorded batch
differs from the planned one; a missing row counts as changed. -/
def fileHasChangedBatch (db : DbState) (root p batchRoot : Path) : Bool :=
  match getFileInfo db (root ++ p) with
  | none => true
  | some fi => batchRoot != fi.batch

/-- Look a subdirectory up by name. -/
def findDir (n : String) : FsDirList → Option FsTree
  | .nil => none
  | .cons m t rest => if m == n then some t else findDir n rest

/-- Look a relative path up in the source tree. -/
def findFile : Path → FsTree → Option SrcFile
  | [], _ => none
  | [n], FsTree.node files _ => files.find? (fun f => f.name == n)
  | n :: rest, FsTree.node _ dirs =>
    match findDir n dirs with
    | some sub => findFile rest sub
    | none => none

/-- `markFile`: stat and hash the file at `filepath.Join(localRoot, p)`
— which resolves to `p` inside the tree rooted at `localRoot` — then
upsert the manifest row keyed by the relative path `p`. -/
def markFile (hashFn : List Nat → Nat) (tree : FsTree) (db : DbState)
    (p batch : Path) : Option DbState :=
  match findFile p tree with
  | none => none
  | some f => some (dbUpsert db { path := p, modTimeMs := msOfNs f.modTimeNs,
                                  hash := hashFn f.content, batch := batch })

/-- `BackupFile` of the planner. -/
structure BFile where
  path : Path
  fileSize : Int
  isDirty : Bool
deriving Repr, DecidableEq

/-- `BackupBatch` of the planner. -/
structure BackupBatch where
  root : Path
  totalSize : Int
  files : List BFile
deriving Repr, DecidableEq

/-- `sumSizes` over files. -/
def sumSizes (fs : List BFile) : Int := fs.foldl (fun a f => a + f.fileSize) 0

/-- `sumSizes` over batches. -/
def sumBatches (bs : List BackupBatch) : Int := bs.foldl (fun a b => a + b.totalSize) 0

/-- Insert into a size-descending list (strict `>` comparator, like the
source's `sort.Slice`; the order among equal sizes is unspecified by
the unstable sort, and this is one admissible result). -/
def insertDesc (f : BFile) : List BFile → List BFile
  | [] => [f]
  | g :: rest => if f.fileSize > g.fileSize then f :: g :: rest else g :: insertDesc f rest

/-- Sort files by size descending. -/
def sortSizeDesc : List BFile → List BFile
  | [] => []
  | f :: rest => insertDesc f (sortSizeDesc rest)

/-- The planner's pop loop: while the running sum exceeds the threshold
and files remain, pop the head (largest) file as its own single-file
batch.  Returns the emitted batches, the remaining files, and the
remaining sum. -/
def popLargest (T : Int) : List BFile → Int → List BackupBatch × List BFile × Int
  | [], sum => ([], [], sum)
  | f :: rest, sum =>
    if sum > T then
      let r := popLargest T rest (sum - f.fileSize)
      ({ root := f.path, totalSize := f.fileSize, files := [f] } :: r.1, r.2.1, r.2.2)
    else ([], f :: rest, sum)

/-- The "if it's just one file, use the file path as the Root" rule. -/
def singletonRoot (relativeRoot : Path) : List BFile → Path
  | [f] => f.path
  | _ => relativeRoot

/-- Phase A of the planner: roll up the current directory's own files,
splitting out the largest ones while the total exceeds the threshold. -/
def phaseA (T : Int) (relativeRoot : Path) (dirFiles : List BFile) : List BackupBatch :=
  if dirFiles = [] then []
  else
    let sum := sumSizes dirFiles
    if sum ≤ T then
      [{ root := singletonRoot relativeRoot dirFiles, totalSize := sum, files := dirFiles }]
    else
      let r := popLargest T (sortSizeDesc dirFiles) sum
      if r.2.1 = [] then r.1
      else r.1 ++ [{ root := singletonRoot relativeRoot r.2.1, totalSize := r.2.2,
                     files := r.2.1 }]

/-- The per-file part of the planner's directory loop: skip the ignored
manifest file name, query the change detector at
`filepath.Join(searchPath, name)` (note: the search path, not the
root-relative path), and record the file under its relative path. -/
def collectDirFiles (hashFn : List Nat → Nat) (db : DbState) (root relDir : Path)
    (files : List SrcFile) : List BFile :=
  (files.filter (fun f => f.name != "backup.db")).map (fun f =>
    { path := relDir ++ [f.name],
      fileSize := (f.content.length : Int),
      isDirty := (doesFileNeedBackup hashFn db (root ++ relDir ++ [f.name]) f).1 })

/-- The per-directory combination step of `getFilesToBackup`: apply
the special single-candidate shortcut, Phase A on the local files, and
the rollup attempt, given the planning results of the subdirectories
in listing order. -/
def planCombine (T : Int) (relDir : Path) (dirFiles : List BFile)
    (subLists : List (List BackupBatch)) : List BackupBatch :=
  let otherBatches := (subLists.filter (fun l => l.length > 1)).flatten
  let maybeRollup := (subLists.filter (fun l => ¬ l.length > 1)).flatten
  if dirFiles = [] ∧ otherBatches = [] ∧ maybeRollup.length = 1 then maybeRollup
  else
    let outputBatches := phaseA T relDir dirFiles
    if outputBatches.length ≤ 1 ∧ maybeRollup ≠ [] ∧ otherBatches = [] then
      let totalSize := sumBatches maybeRollup + sumBatches outputBatches
      if totalSize ≤ T then
        [{ root := relDir, totalSize := totalSize,
           files := (outputBatches.map (fun b => b.files)).flatten ++
                    (maybeRollup.map (fun b => b.files)).flatten }]
      else outputBatches ++ otherBatches ++ maybeRollup
    else outputBatches ++ otherBatches ++ maybeRollup

mutual

/-- `getFilesToBackup`: the recursive batch planner.  `relDir` is the
current directory relative to the cleaned root (`[]` for the top, so
`filepath.Rel root searchPath = relDir`). -/
def getFilesToBackup (hashFn : List Nat → Nat) (db : DbState) (root : Path) (T : Int)
    (relDir : Path) : FsTree → List BackupBatch
  | FsTree.node files dirs =>
    planCombine T relDir (collectDirFiles hashFn db root relDir files)
      (planSubdirs hashFn db root T relDir dirs)

/-- The subdirectory recursion of `getFilesToBackup`, in listing order. -/
def planSubdirs (hashFn : List Nat → Nat) (db : DbState) (root : Path) (T : Int)
    (relDir : Path) : FsDirList → List (List BackupBatch)
  | .nil => []
  | .cons n t rest =>
    getFilesToBackup hashFn db root T (relDir ++ [n]) t ::
      planSubdirs hashFn db root T relDir rest

end

/-- A TAR entry as produced by `addFileToArchive`: name relative to the
archive's base directory, file bytes, and the PAX-preserved
modification time. -/
structure TarEntry where
  name : Path
  content : List Nat
  modTimeNs : Nat
deriving Repr, DecidableEq

/-- An object-store blob: either a `tar`-over-gzip archive of files or
the gzipped manifest file (kept as its rows). -/
inductive Blob where
  | tarGz : List TarEntry → Blob
  | dbGz : DbState → Blob
deriving Repr, DecidableEq

/-- The S3-compatible object store: keys to blobs. -/
abbrev Store := List (Path × Blob)

/-- `PutObject`: write or replace. -/
def storePut (s : Store) (k : Path) (b : Blob) : Store :=
  if s.any (fun e => e.1 == k) then s.map (fun e => if e.1 == k then (k, b) else e)
  else s ++ [(k, b)]

/-- `GetObject`. -/
def storeGet (s : Store) (k : Path) : Option Blob :=
  (s.find? (fun e => e.1 == k)).map (fun e => e.2)

/-- `DeleteObjects` with one key. -/
def storeDelete (s : Store) (k : Path) : Store :=
  s.filter (fun e => e.1 != k)

/-- `ListObjectsV2` under `prefix + "/"`: component-wise, the keys that
properly extend the prefix (the listed order is unspecified by the
adapter contract; the store's order is one admissible choice). -/
def storeKeysUnder (s : Store) (pfx : Path) : List Path :=
  (s.map (fun e => e.1)).filter (fun k => pfx.isPrefixOf k && k != pfx)

/-- `filepath.Rel` on cleaned paths: strip the common prefix, then one
`..` per remaining base component. -/
def relPath : Path → Path → Path
  | [], t => t
  | b, [] => b.map (fun _ => "..")
  | b :: bs, t :: ts =>
    if b == t then relPath bs ts
    else (b :: bs).map (fun _ => "..") ++ t :: ts

/-- Append a string suffix to the last path component (Go string
concatenation `path + ".tar.gz"` on a joined path). -/
def withSuffix (suffix : String) : Path → Path
  | [] => [suffix]
  | [n] => [n ++ suffix]
  | n :: rest => n :: withSuffix suffix rest

/-- `filepath.Dir` on a cleaned relative path (`Dir "a.txt" = "."`). -/
def dirOf (p : Path) : Path := p.dropLast

/-- `backupFilesToArchive`'s archive construction: one entry per file,
named `Rel(Join(root, batchRoot), Join(root, filePath))`, with content
and sub-second mod-time from the file. -/
def archiveEntries (tree : FsTree) (root batchRoot : Path) (filePaths : List Path) :
    Option (List TarEntry) :=
  filePaths.mapM (fun p =>
    (findFile p tree).map (fun f =>
      { name := relPath (root ++ batchRoot) (root ++ p),
        content := f.content, modTimeNs := f.modTimeNs }))

/-- Mark every file of an uploaded batch, in order. -/
def markFiles (hashFn : List Nat → Nat) (tree : FsTree) (batch : Path) :
    DbState → List Path → Option DbState
  | db, [] => some db
  | db, p :: rest =>
    match markFile hashFn tree db p batch with
    | none => none
    | some db2 => markFiles hashFn tree batch db2 rest

/-- `backupBatch`: skip a batch with no dirty or re-grouped files;
otherwise archive it (multi-file to `<prefix>/<root>/_files.tar.gz`,
single-file to `<prefix>/<path>.tar.gz`) and upsert each member —
with `batch = root` for a grouped batch and `batch = path` for a lone
one.  Returns the new manifest, store, and uploaded keys. -/
def backupBatchM (hashFn : List Nat → Nat) (tree : FsTree) (db : DbState) (store : Store)
    (root pfx : Path) (batch : BackupBatch) (dryRun : Bool) :
    Option (DbState × Store × List Path) :=
  if batch.files = [] then some (db, store, [])
  else
    let anyDirty := batch.files.any (fun f =>
      f.isDirty || fileHasChangedBatch db root f.path batch.root)
    if !anyDirty then some (db, store, [])
    else if dryRun then some (db, store, [])
    else
      match batch.files with
      | [] => some (db, store, [])
      | [f] =>
        let key := pfx ++ withSuffix ".tar.gz" f.path
        match archiveEntries tree root (dirOf f.path) [f.path] with
        | none => none
        | some entries =>
          match markFile hashFn tree db f.path f.path with
          | none => none
          | some db2 => some (db2, storePut store key (Blob.tarGz entries), [key])
      | _ :: _ :: _ =>
        let filePaths := batch.files.map (fun f => f.path)
        let key := pfx ++ batch.root ++ ["_files.tar.gz"]
        match archiveEntries tree root batch.root filePaths with
        | none => none
        | some entries =>
          match markFiles hashFn tree batch.root db filePaths with
          | none => none
          | some db2 => some (db2, storePut store key (Blob.tarGz entries), [key])

/-- The remote key `deleteBatch` computes for a retired batch. -/
def deleteBatchKey (pfx : Path) (batch : BatchMeta) : Path :=
  if batch.isSingleFile then withSuffix ".tar.gz" (pfx ++ batch.path)
  else (pfx ++ batch.path) ++ ["_files.tar.gz"]

/-- `deleteBatch`: delete the batch's remote archive first and, only
when that succeeded, its manifest rows.  `remoteErr` is the outcome of
the `DeleteObjects` call; the first component of the result is the
returned error. -/
def deleteBatchM (db : DbState) (store : Store) (pfx : Path) (batch : BatchMeta)
    (dryRun : Bool) (remoteErr : Option String) : Option String × DbState × Store :=
  let key := deleteBatchKey pfx batch
  if dryRun then (none, db, store)
  else
    match remoteErr with
    | some e => (some e, db, store)
    | none => (none, dbDeleteBatch db batch.path, storeDelete store key)

/-- The delete phase: retire each stale batch in turn (remote calls
succeeding). -/
def deleteBatchesM (pfx : Path) (dryRun : Bool) :
    DbState → Store → List BatchMeta → DbState × Store
  | db, store, [] => (db, store)
  | db, store, b :: rest =>
    let r := deleteBatchM db store pfx b dryRun none
    deleteBatchesM pfx dryRun r.2.1 r.2.2 rest

/-- `getBatchesToDelete`: manifest batches not named by any planned
batch root (the source iterates a map, so the order is arbitrary; the
manifest's group order is one admissible choice). -/
def getBatchesToDelete (db : DbState) (batches : List BackupBatch) :
    Except String (List BatchMeta) :=
  let planned := batches.map (fun b => b.root)
  (getExistingBatches db).map (fun ex => ex.filter (fun b => ¬ planned.contains b.path))

/-- The upload phase: back up each planned batch in turn, accumulating
the uploaded keys. -/
def backupBatchesM (hashFn : List Nat → Nat) (tree : FsTree) (root pfx : Path)
    (dryRun : Bool) : DbState → Store → List BackupBatch →
    Option (DbState × Store × List Path)
  | db, store, [] => some (db, store, [])
  | db, store, b :: rest =>
    match backupBatchM hashFn tree db store root pfx b dryRun with
    | none => none
    | some (db2, store2, ups) =>
      match backupBatchesM hashFn tree root pfx dryRun db2 store2 rest with
      | none => none
      | some (db3, store3, ups2) => some (db3, store3, ups ++ ups2)

/-- The body of `downloadAndCompareDB`'s first loop: check one local
row against the remote row of the same path for `(mod_time, hash,
batch)` equality. -/
def compareEntryLocal (remoteDb : DbState) (lr : DbRecord) : List String :=
  match getFileInfo remoteDb lr.path with
  | none => ["not found in remote db"]
  | some rr =>
    (if lr.modTimeMs ≠ rr.modTimeMs then ["has different mod time in local and remote db"] else []) ++
    (if lr.hash ≠ rr.hash then ["has different hash in local and remote db"] else []) ++
    (if lr.batch ≠ rr.batch then ["has different batch in local and remote db"] else [])

/-- The body of `downloadAndCompareDB`'s second loop: report a remote
row whose path is missing locally. -/
def compareEntryRemote (localDb : DbState) (rr : DbRecord) : List String :=
  match getFileInfo localDb rr.path with
  | none => ["not found in local db"]
  | some _ => []

/-- `downloadAndCompareDB`'s record comparison: every local row is
checked against the remote row of the same path, then remote rows
missing locally are reported. -/
def compareDbs (localDb remoteDb : DbState) : List String :=
  (localDb.map (compareEntryLocal remoteDb)).flatten ++
  (remoteDb.map (compareEntryRemote localDb)).flatten

/-- Drift of one local record against the remote manifest, as the
claim states it: the path is missing remotely or some of the
`(mod_time, hash, batch)` fields differ. -/
def recordDrift (remoteDb : DbState) (x : DbRecord) : Prop :=
  match getFileInfo remoteDb x.path with
  | none => True
  | some y => x.modTimeMs ≠ y.modTimeMs ∨ x.hash ≠ y.hash ∨ x.batch ≠ y.batch

/-- The claim's "the two differ in some record's `(mod_time, hash,
batch)` fields or in the set of paths". -/
def manifestsDiffer (l r : DbState) : Prop :=
  (∃ x ∈ l, recordDrift r x) ∨ (∃ y ∈ r, getFileInfo l y.path = none)

/-- `downloadAndCompareDB`: no local manifest file or remote `NotFound`
means a fresh backup (no changes); otherwise compare the two
manifests. -/
def downloadAndCompareDB (localDbExists : Bool) (localDb : DbState)
    (remoteDb? : Option DbState) : List String :=
  if !localDbExists then []
  else
    match remoteDb? with
    | none => []
    | some remote => compareDbs localDb remote

/-- The drift gate of `BackupFiles` (and `RecoverFiles`): abort when
the comparison reported changes and `force` is unset. -/
def backupDriftCheck (localDbExists : Bool) (localDb : DbState)
    (remoteDb? : Option DbState) (force : Bool) : Except String Unit :=
  let changes := downloadAndCompareDB localDbExists localDb remoteDb?
  if changes ≠ [] ∧ force = false then
    .error "files have changed in storage since the last backup"
  else .ok ()

/-- The remote manifest as read back from the store: the gzipped db
blob at `<prefixBase>/<name>.db.gz`, if present. -/
def remoteDbOf (store : Store) (dbKey : Path) : Option DbState :=
  match storeGet store dbKey with
  | some (Blob.dbGz r) => some r
  | _ => none

/-- `BackupFiles`: drift gate, plan, retire stale batches, upload dirty
batches, then persist the manifest remotely.  The local manifest file
exists by this point (`NewDB` creates it), so the comparison always
runs against the current rows.  Returns the manifest, the store, and
the list of uploaded batch-archive keys. -/
def backupFilesM (hashFn : List Nat → Nat) (tree : FsTree) (db : DbState) (store : Store)
    (root prefixBase : Path) (name : String) (T : Int) (force dryRun : Bool) :
    Except String (DbState × Store × List Path) :=
  let pfx := prefixBase ++ [name]
  let dbKey := prefixBase ++ [name ++ ".db.gz"]
  match backupDriftCheck true db (remoteDbOf store dbKey) force with
  | .error e => .error e
  | .ok _ =>
    let batches := getFilesToBackup hashFn db root T [] tree
    match getBatchesToDelete db batches with
    | .error e => .error e
    | .ok toDelete =>
      let p1 := deleteBatchesM pfx dryRun db store toDelete
      match backupBatchesM hashFn tree root pfx dryRun p1.1 p1.2 batches with
      | none => .error "error backing up batch"
      | some (db2, store2, ups) =>
        if dryRun then .ok (db2, store2, ups)
        else .ok (db2, storePut store2 dbKey (Blob.dbGz db2), ups)

/-- A file in the recovery destination: either a regular file with
bytes and mod-time, or a downloaded-but-unextracted blob. -/
inductive FsVal where
  | plain : List Nat → Nat → FsVal
  | archiveFile : Blob → FsVal
deriving Repr, DecidableEq

/-- The recovery destination's files, keyed by destination path. -/
abbrev DestFs := List (Path × FsVal)

/-- Create or overwrite a destination file. -/
def fsWrite (fs : DestFs) (p : Path) (v : FsVal) : DestFs :=
  if fs.any (fun e => e.1 == p) then fs.map (fun e => if e.1 == p then (p, v) else e)
  else fs ++ [(p, v)]

/-- `os.Remove`. -/
def fsRemove (fs : DestFs) (p : Path) : DestFs :=
  fs.filter (fun e => e.1 != p)

/-- Destination lookup. -/
def fsFind (fs : DestFs) (p : Path) : Option FsVal :=
  (fs.find? (fun e => e.1 == p)).map (fun e => e.2)

/-- Decode a downloaded blob as a TAR-over-gzip archive; anything else
fails (`gzip.NewReader`/`tar.Next` error). -/
def unTarBlob : Blob → Option (List TarEntry)
  | Blob.tarGz es => some es
  | _ => none

/-- `unTar`'s extraction loop: write each regular entry to
`Join(destinationDir, header.Name)` and set its mod-time from the
header. -/
def unTarInto (fs : DestFs) (dir : Path) (entries : List TarEntry) : DestFs :=
  entries.foldl (fun acc e => fsWrite acc (dir ++ e.name) (FsVal.plain e.content e.modTimeNs)) fs

/-- `filepath.Base` of a non-empty relative path. -/
def baseName (p : Path) : String := p.getLastD ""

/-- One iteration of `RecoverFiles`' object loop: download the object
to `Join(dest, TrimPrefix(key, keyPrefix))`, then — on both sides of
the basename test, which only changes the log lines — extract it into
the local path's parent directory and delete the downloaded file. -/
def recoverObject (store : Store) (fs : DestFs) (dest keyPrefix key : Path) :
    Except String DestFs :=
  let localPath := dest ++ key.drop keyPrefix.length
  match storeGet store key with
  | none => .error "failed to download file"
  | some blob =>
    let fs1 := fsWrite fs localPath (FsVal.archiveFile blob)
    if baseName localPath == "_files.tar.gz" then
      match unTarBlob blob with
      | none => .error "failed to extract files from archive"
      | some entries => .ok (fsRemove (unTarInto fs1 (dirOf localPath) entries) localPath)
    else
      match unTarBlob blob with
      | none => .error "failed to decompress file"
      | some entries => .ok (fsRemove (unTarInto fs1 (dirOf localPath) entries) localPath)

/-- The object loop of `RecoverFiles`. -/
def recoverObjects (store : Store) (dest keyPrefix : Path) :
    DestFs → List Path → Except String DestFs
  | fs, [] => .ok fs
  | fs, k :: rest =>
    match recoverObject store fs dest keyPrefix k with
    | .error e => .error e
    | .ok fs2 => recoverObjects store dest keyPrefix fs2 rest

/-- `RecoverFiles`: drift gate, download the remote manifest as the new
local manifest, list the keys under the prefix, and run the object
loop into the destination.  Returns the recovered files and the new
local manifest. -/
def recoverFilesM (store : Store) (localDbExists : Bool) (db : DbState)
    (prefixBase : Path) (name : String) (dest : Path) (force : Bool) :
    Except String (DestFs × DbState) :=
  let pfx := prefixBase ++ [name]
  if pfx = [] then .error "S3 key prefix is required"
  else
    let dbKey := prefixBase ++ [name ++ ".db.gz"]
    match backupDriftCheck localDbExists db (remoteDbOf store dbKey) force with
    | .error e => .error e
    | .ok _ =>
      match remoteDbOf store dbKey with
      | none => .error "failed to download remote db file"
      | some rdb =>
        match recoverObjects store dest pfx [] (storeKeysUnder store pfx) with
        | .error e => .error e
        | .ok fs => .ok (fs, rdb)

mutual

/-- All files of a tree with their relative paths, in listing order. -/
def treeFiles : FsTree → List (Path × SrcFile)
  | FsTree.node files dirs =>
    files.map (fun f => ([f.name], f)) ++ treeFilesDirs dirs

/-- `treeFiles` over a subdirectory list. -/
def treeFilesDirs : FsDirList → List (Path × SrcFile)
  | .nil => []
  | .cons n t rest => (treeFiles t).map (fun pf => (n :: pf.1, pf.2)) ++ treeFilesDirs rest

end

/-- The entry names of a subdirectory list. -/
def dirNames : FsDirList → List String
  | .nil => []
  | .cons n _ rest => n :: dirNames rest

mutual

/-- Well-formed tree: names at each level are distinct (as a directory
listing's are). -/
def treeWFb : FsTree → Bool
  | FsTree.node files dirs =>
    decide ((files.map SrcFile.name ++ dirNames dirs).Nodup) && treeWFbList dirs

/-- `treeWFb` over a subdirectory list. -/
def treeWFbList : FsDirList → Bool
  | .nil => true
  | .cons _ t rest => treeWFb t && treeWFbList rest

end

/-! ### Concrete instances used by witnesses and counterexamples -/

/-- A concrete stand-in for the external content hasher. -/
def hashC : List Nat → Nat := fun c => c.foldl (fun a b => a * 131 + b + 1) 7

/-- A small source file for concrete runs. -/
def mkFileC (n : String) (sz : Nat) : SrcFile :=
  { name := n, content := List.replicate sz 1, modTimeNs := 1500000000 * 1000000000 }

/-- The three-file tree of the spec's first end-to-end scenario. -/
def treeC : FsTree := FsTree.node [mkFileC "a.txt" 5, mkFileC "b.txt" 9, mkFileC "c.txt" 25] .nil

/-- Spec side of amended claim C6: "while the running sum exceeds T,
pop the largest file and emit it as its own single-file batch with
root equal to that file's path". -/
def specPop (T : Int) : Int → List BFile → List BackupBatch × List BFile × Int
  | sum, [] => ([], [], sum)
  | sum, f :: rest =>
    if T < sum then
      let r := specPop T (sum - f.fileSize) rest
      ({ root := f.path, totalSize := f.fileSize, files := [f] } :: r.1, r.2.1, r.2.2)
    else ([], f :: rest, sum)

/-- Spec side of amended claim C6: sort the directory's files by size
descending, pop while the sum exceeds the threshold, and emit the
remainder — when it is non-empty — as one further batch whose root
follows the single-file rule. -/
def specOversizeSplit (T : Int) (relativeRoot : Path) (dirFiles : List BFile) :
    List BackupBatch :=
  let sorted := sortSizeDesc dirFiles
  let r := specPop T (sumSizes dirFiles) sorted
  if r.2.1 = [] then r.1
  else r.1 ++ [{ root := singletonRoot relativeRoot r.2.1, totalSize := r.2.2,
                 files := r.2.1 }]

/-- A directory whose two files (sizes 7 and 5) both exceed the
threshold 3, so the pop loop drains every file and the remainder is
empty. -/
def c6tree : FsTree := FsTree.node [mkFileC "x.txt" 7, mkFileC "y.txt" 5] .nil

/-- A degenerate stand-in hasher for runs whose claims do not depend
on hash values. -/
def hash0 : List Nat → Nat := fun _ => 0

/-- A one-file tree backed up from the absolute root `r`. -/
def c2tree : FsTree := FsTree.node [mkFileC "a.txt" 5] .nil

/-- The manifest after the first backup of `c2tree`. -/
def c2db1 : DbState :=
  [{ path := ["a.txt"], modTimeMs := 1500000000000, hash := 0, batch := ["a.txt"] }]

/-- The store after the first backup of `c2tree`. -/
def c2store1 : Store :=
  [(["backups", "n", "a.txt.tar.gz"],
    Blob.tarGz [{ name := ["a.txt"], content := List.replicate 5 1,
                  modTimeNs := 1500000000 * 1000000000 }]),
   (["backups", "n.db.gz"], Blob.dbGz c2db1)]

/-- A manifest with one single-file batch and one two-file batch. -/
def c9db : DbState :=
  [{ path := ["a"], modTimeMs := 1, hash := 0, batch := ["a"] },
   { path := ["d", "x"], modTimeMs := 1, hash := 0, batch := ["d"] },
   { path := ["d", "y"], modTimeMs := 2, hash := 0, batch := ["d"] }]

/-- A store holding one archive object whose key does not end in
`.tar.gz`. -/
def c8store : Store :=
  [(["p", "n", "data.bin"],
    Blob.tarGz [{ name := ["inner.txt"], content := [1, 2], modTimeNs := 5 }])]

/-- The destination state the recovery loop produces from `c8store`. -/
def c8result : DestFs := [(["inner.txt"], FsVal.plain [1, 2] 5)]

/-- A tree with a small two-file directory (one multi-file batch) and a
subdirectory holding one oversized file (one lone batch). -/
def c7tree : FsTree :=
  FsTree.node [mkFileC "a.txt" 3, mkFileC "b.txt" 4]
    (.cons "d" (FsTree.node [mkFileC "huge.bin" 20] .nil) .nil)

/-- The outcome of the fresh backup of `c7tree`. -/
def c7res : DbState × Store × List Path :=
  match backupFilesM hash0 c7tree [] [] [] [] "n" 10 false false with
  | .ok r => r
  | .error _ => ([], [], [])

/-- The outcome of recovering `c7tree`'s backup into `out`. -/
def c7rec : DestFs × DbState :=
  match recoverFilesM c7res.2.1 false [] [] "n" ["out"] false with
  | .ok r => r
  | .error _ => ([], [])

/-- A directory holding a file literally named `_files.tar.gz` next to
another file, so the directory's own archive key collides with it. -/
def c1tree : FsTree := FsTree.node [mkFileC "_files.tar.gz" 2, mkFileC "a.txt" 3] .nil

/-- The outcome of the fresh backup of `c1tree`. -/
def c1back : DbState × Store × List Path :=
  match backupFilesM hashC c1tree [] [] [] ["b"] "n" 10 false false with
  | .ok r => r
  | .error _ => ([], [], [])

/-- The outcome of recovering `c1tree`'s backup into a clean
destination. -/
def c1rec : DestFs × DbState :=
  match recoverFilesM c1back.2.1 false [] ["b"] "n" [] false with
  | .ok r => r
  | .error _ => ([], [])

/-! ### Verification predicates -/

/-- Structural well-formedness of one planned batch relative to the
directory it was planned under: it is non-empty, its member paths
properly extend the directory, and it is either a lone file or every
member path properly extends the batch root. -/
def BatchOK (relDir : Path) (b : BackupBatch) : Prop :=
  b.files ≠ [] ∧
  (∀ f ∈ b.files, ∃ s, s ≠ [] ∧ f.path = relDir ++ s) ∧
  (b.files.length = 1 ∨ ∀ f ∈ b.files, ∃ s, s ≠ [] ∧ f.path = b.root ++ s)

/-- A planned file's provenance: it names an actual file of the tree
below `relDir`, with the size and dirty flag the walk computed. -/
def FileOK (hashFn : List Nat → Nat) (db : DbState) (root : Path) (t : FsTree)
    (relDir : Path) (bf : BFile) : Prop :=
  ∃ s src, s ≠ [] ∧ findFile s t = some src ∧
    bf = { path := relDir ++ s, fileSize := (src.content.length : Int),
           isDirty := (doesFileNeedBackup hashFn db (root ++ (relDir ++ s)) src).1 }

/-- All member paths of a batch list, in order. -/
def planPaths (bs : List BackupBatch) : List Path :=
  bs.flatMap (fun b => b.files.map (fun f => f.path))

/-- The manifest row `markFile` writes for path `p` with batch value
`bt` (the fallback values are never reached on planned paths). -/
def plannedRecord (hashFn : List Nat → Nat) (tree : FsTree) (bt p : Path) : DbRecord :=
  match findFile p tree with
  | some src => { path := p, modTimeMs := msOfNs src.modTimeNs,
                  hash := hashFn src.content, batch := bt }
  | none => { path := p, modTimeMs := 0, hash := 0, batch := bt }

/-- The manifest rows one uploaded batch writes: the lone file keyed by
its own path, or every member keyed by the batch root. -/
def batchRecords (hashFn : List Nat → Nat) (tree : FsTree) (b : BackupBatch) :
    List DbRecord :=
  match b.files with
  | [f] => [plannedRecord hashFn tree f.path f.path]
  | _ => b.files.map (fun f => plannedRecord hashFn tree b.root f.path)

/-- The store key (relative to the prefix) one batch's archive is
uploaded to. -/
def batchKeySuffix (b : BackupBatch) : Path :=
  match b.files with
  | [f] => withSuffix ".tar.gz" f.path
  | _ => b.root ++ ["_files.tar.gz"]

/-- The archive blob one batch uploads. -/
def batchBlob (tree : FsTree) (root : Path) (b : BackupBatch) : Blob :=
  match archiveEntries tree root
      (match b.files with | [f] => dirOf f.path | _ => b.root)
      (b.files.map (fun f => f.path)) with
  | some es => Blob.tarGz es
  | none => Blob.tarGz []

/-- The directory a batch archives its entries relative to. -/
def batchRootOf (b : BackupBatch) : Path :=
  match b.files with | [f] => dirOf f.path | _ => b.root

/-- Total file lookup with a default, for stating entry contents. -/
def findFileD (p : Path) (t : FsTree) : SrcFile :=
  (findFile p t).getD { name := "", content := [], modTimeNs := 0 }

/-- The TAR entries of a batch's archive. -/
def batchEntries (tree : FsTree) (root : Path) (b : BackupBatch) : List TarEntry :=
  match archiveEntries tree root (batchRootOf b) (b.files.map (fun f => f.path)) with
  | some es => es
  | none => []

/-- What one object-loop iteration does to the destination for a batch
archive: download, extract next to it, delete the download. -/
def recoverBatchStep (tree : FsTree) (root dest : Path) (acc : DestFs) (b : BackupBatch) :
    DestFs :=
  fsRemove (unTarInto
    (fsWrite acc (dest ++ batchKeySuffix b) (FsVal.archiveFile (batchBlob tree root b)))
    (dirOf (dest ++ batchKeySuffix b)) (batchEntries tree root b))
    (dest ++ batchKeySuffix b)

/-- Upsert a list of rows in order. -/
def dbUpsertAll (db : DbState) (rs : List DbRecord) : DbState := rs.foldl dbUpsert db

/-- The manifest rows a full upload phase writes. -/
def planRecords (hashFn : List Nat → Nat) (tree : FsTree) (bs : List BackupBatch) :
    List DbRecord :=
  bs.flatMap (batchRecords hashFn tree)

/-- The store entries a full upload phase writes under the prefix. -/
def planStoreList (tree : FsTree) (root pfx : Path) (bs : List BackupBatch) : Store :=
  bs.map (fun b => (pfx ++ batchKeySuffix b, batchBlob tree root b))

/-! ## Theorems -/

mutual

/-- Mutual induction over directory trees. -/
theorem fsTreeInd (P : FsTree → Prop) (Q : FsDirList → Prop)
    (hnode : ∀ fs ds, Q ds → P (FsTree.node fs ds))
    (hnil : Q .nil)
    (hcons : ∀ n t rest, P t → Q rest → Q (.cons n t rest)) : ∀ t, P t
  | FsTree.node fs ds => hnode fs ds (fsDirListInd P Q hnode hnil hcons ds)

/-- Mutual induction over subdirectory lists. -/
theorem fsDirListInd (P : FsTree → Prop) (Q : FsDirList → Prop)
    (hnode : ∀ fs ds, Q ds → P (FsTree.node fs ds))
    (hnil : Q .nil)
    (hcons : ∀ n t rest, P t → Q rest → Q (.cons n t rest)) : ∀ ds, Q ds
  | .nil => hnil
  | .cons n t rest =>
    hcons n t rest (fsTreeInd P Q hnode hnil hcons t) (fsDirListInd P Q hnode hnil hcons rest)

end

/-- `planSubdirs` is the planner mapped over the subdirectory list. -/
theorem planSubdirs_eq_map (hashFn : List Nat → Nat) (db : DbState) (root : Path)
    (T : Int) (relDir : Path) : ∀ dirs : FsDirList,
    planSubdirs hashFn db root T relDir dirs =
      dirs.toList.map (fun d => getFilesToBackup hashFn db root T (relDir ++ [d.1]) d.2)
  | .nil => rfl
  | .cons n t rest => by
    simp [planSubdirs, FsDirList.toList, planSubdirs_eq_map hashFn db root T relDir rest]

/-- C10: if the remote delete of a batch's archive fails, `deleteBatch`
returns that error and neither the manifest rows nor the store have
been touched. -/
theorem C10_delete_remote_error_keeps_manifest (db : DbState) (store : Store)
    (pfx : Path) (batch : BatchMeta) (e : String) :
    deleteBatchM db store pfx batch false (some e) = (some e, db, store) := rfl

/-- C8 counterexample: an object whose basename is `data.bin` (neither
`_files.tar.gz` nor a `.tar.gz` name) is nevertheless extracted into
its parent directory and the downloaded file deleted, instead of being
left as-is at its downloaded path. -/
theorem C8_counterexample :
    recoverObject c8store [] [] ["p", "n"] ["p", "n", "data.bin"] = .ok c8result ∧
    fsFind c8result ["data.bin"] = none ∧
    fsFind c8result ["inner.txt"] = some (FsVal.plain [1, 2] 5) := by
  refine ⟨?_, rfl, rfl⟩
  rfl

/-- C8 amended: during recovery every listed object, regardless of its
basename, is downloaded, extracted into the downloaded path's parent
directory with mod-times preserved, and the downloaded file deleted;
the basename test only selects between identical branches. -/
theorem C8_every_object_extracted (store : Store) (fs : DestFs) (dest kp k : Path)
    (blob : Blob) (entries : List TarEntry)
    (hget : storeGet store k = some blob) (hun : unTarBlob blob = some entries) :
    recoverObject store fs dest kp k =
      .ok (fsRemove
            (unTarInto (fsWrite fs (dest ++ k.drop kp.length) (FsVal.archiveFile blob))
              (dirOf (dest ++ k.drop kp.length)) entries)
            (dest ++ k.drop kp.length)) := by
  unfold recoverObject
  rw [hget]
  by_cases hb : baseName (dest ++ k.drop kp.length) == "_files.tar.gz" <;>
    simp [hb, hun]

/-- Witness for `C8_every_object_extracted` at a concrete store. -/
theorem C8_every_object_extracted_witness :
    recoverObject c8store [] [] ["p", "n"] ["p", "n", "data.bin"] =
      .ok (fsRemove
            (unTarInto (fsWrite [] (["data.bin"]) (FsVal.archiveFile
              (Blob.tarGz [{ name := ["inner.txt"], content := [1, 2], modTimeNs := 5 }])))
              (dirOf ["data.bin"])
              [{ name := ["inner.txt"], content := [1, 2], modTimeNs := 5 }])
            ["data.bin"]) :=
  C8_every_object_extracted c8store [] [] ["p", "n"] ["p", "n", "data.bin"] _ _ rfl rfl

/-- C3: the change detector returns `(true, Add, New)` when no manifest
row exists; with a row it returns `(false, None, None)` exactly when
the mod-times agree at second precision and the hashes agree, returns
`(true, Change, Hash)` whenever the hashes differ, and returns
`(true, Change, ModTime)` when only the mod-time differs. -/
theorem C3_change_detector_cases (hashFn : List Nat → Nat) (db : DbState)
    (p : Path) (f : SrcFile) :
    (getFileInfo db p = none →
      doesFileNeedBackup hashFn db p f = (true, .opAdd, .rNew)) ∧
    (∀ fi, getFileInfo db p = some fi →
      ((doesFileNeedBackup hashFn db p f = (false, .opNone, .rNone) ↔
        truncSecNs f.modTimeNs = truncSecMs fi.modTimeMs ∧ hashFn f.content = fi.hash) ∧
       (hashFn f.content ≠ fi.hash →
        doesFileNeedBackup hashFn db p f = (true, .opChange, .rHash)) ∧
       (hashFn f.content = fi.hash → truncSecNs f.modTimeNs ≠ truncSecMs fi.modTimeMs →
        doesFileNeedBackup hashFn db p f = (true, .opChange, .rModtime)))) := by
  constructor
  · intro hnone
    simp [doesFileNeedBackup, hnone]
  · intro fi hfi
    by_cases hm : truncSecNs f.modTimeNs = truncSecMs fi.modTimeMs <;>
      by_cases hh : hashFn f.content = fi.hash
    · refine ⟨?_, ?_, ?_⟩
      · simp [doesFileNeedBackup, hfi, hm, hh]
      · intro h; exact absurd hh h
      · intro _ h; exact absurd hm h
    · refine ⟨?_, ?_, ?_⟩
      · simp [doesFileNeedBackup, hfi, hm, hh]
      · intro _; simp [doesFileNeedBackup, hfi, hm, hh]
      · intro h _; exact absurd h hh
    · refine ⟨?_, ?_, ?_⟩
      · simp [doesFileNeedBackup, hfi, hm, hh]
      · intro h; exact absurd hh h
      · intro _ _; simp [doesFileNeedBackup, hfi, hm, hh]
    · refine ⟨?_, ?_, ?_⟩
      · simp [doesFileNeedBackup, hfi, hm, hh]
      · intro _; simp [doesFileNeedBackup, hfi, hm, hh]
      · intro h _; exact absurd h hh

/-- Membership in the first-occurrence dedup. -/
theorem mem_dedupFirstGo : ∀ (l : List Path) (seen : List Path) (x : Path),
    x ∈ dedupFirstGo seen l ↔ x ∈ l ∧ x ∉ seen
  | [], seen, x => by simp [dedupFirstGo]
  | b :: rest, seen, x => by
    unfold dedupFirstGo
    by_cases hb : seen.contains b
    · rw [if_pos hb, mem_dedupFirstGo rest seen x]
      have hbseen : b ∈ seen := by simpa using hb
      constructor
      · rintro ⟨h1, h2⟩
        exact ⟨List.mem_cons_of_mem b h1, h2⟩
      · rintro ⟨h1, h2⟩
        rcases List.mem_cons.mp h1 with rfl | h1
        · exact absurd hbseen h2
        · exact ⟨h1, h2⟩
    · rw [if_neg hb]
      have hbseen : b ∉ seen := by simpa using hb
      constructor
      · intro hmem
        rcases List.mem_cons.mp hmem with rfl | hmem
        · exact ⟨List.mem_cons_self _ _, hbseen⟩
        · have h := (mem_dedupFirstGo rest (seen ++ [b]) x).mp hmem
          exact ⟨List.mem_cons_of_mem b h.1, fun hx => h.2 (List.mem_append_left _ hx)⟩
      · rintro ⟨h1, h2⟩
        rcases List.mem_cons.mp h1 with rfl | h1
        · exact List.mem_cons_self _ _
        · by_cases hxb : x = b
          · rw [hxb]
            exact List.mem_cons_self _ _
          · refine List.mem_cons_of_mem b
              ((mem_dedupFirstGo rest (seen ++ [b]) x).mpr ⟨h1, ?_⟩)
            intro hx
            rcases List.mem_append.mp hx with hx | hx
            · exact h2 hx
            · exact hxb (List.mem_singleton.mp hx)

/-- The first-occurrence dedup has no duplicates. -/
theorem nodup_dedupFirstGo : ∀ (l : List Path) (seen : List Path),
    (dedupFirstGo seen l).Nodup
  | [], seen => by simp [dedupFirstGo]
  | b :: rest, seen => by
    unfold dedupFirstGo
    by_cases hb : seen.contains b
    · rw [if_pos hb]
      exact nodup_dedupFirstGo rest seen
    · rw [if_neg hb]
      refine List.nodup_cons.mpr ⟨?_, nodup_dedupFirstGo rest (seen ++ [b])⟩
      intro hmem
      have := (mem_dedupFirstGo rest (seen ++ [b]) b).mp hmem
      exact this.2 (List.mem_append.mpr (Or.inr (List.mem_singleton.mpr rfl)))

/-- `batchMetaOf` with its let-bindings expanded. -/
theorem batchMetaOf_def (db : DbState) (b : Path) :
    batchMetaOf db b =
      if 0 < ((db.filter (fun r => r.batch == b)).filter (fun r => r.path != b)).length ∧
          ((db.filter (fun r => r.batch == b)).filter (fun r => r.path != b)).length ≠
            (db.filter (fun r => r.batch == b)).length then
        .error "detected a batch with multiple files, where one of the filenames matches the batch name"
      else .ok { path := b,
                 isSingleFile :=
                   ((db.filter (fun r => r.batch == b)).filter
                     (fun r => r.path != b)).length == 0 } := rfl

/-- An `ok` row of `GetExistingBatches` carries the group's batch path
and classifies it single-file exactly when every member's path equals
the batch path. -/
theorem batchMetaOf_ok_iff (db : DbState) (b : Path) (m : BatchMeta)
    (hm : batchMetaOf db b = .ok m) :
    m.path = b ∧ (m.isSingleFile = true ↔ ∀ r ∈ db, r.batch = b → r.path = b) := by
  rw [batchMetaOf_def] at hm
  split at hm
  · cases hm
  · rename_i hcond
    cases hm
    refine ⟨rfl, ?_⟩
    simp only [beq_iff_eq, List.length_eq_zero, List.filter_eq_nil_iff]
    constructor
    · intro hnil r hr hb
      by_contra hne
      have hrg : r ∈ db.filter (fun r => r.batch == b) :=
        List.mem_filter.mpr ⟨hr, by simpa using hb⟩
      have := hnil r hrg
      simp [hne] at this
    · intro hall r hr
      have hr2 := List.mem_filter.mp hr
      have := hall r hr2.1 (by simpa using hr2.2)
      simp [this]

/-- `GetExistingBatches` rejects a group exactly when it has both a
member whose path equals the batch value and a member whose path
differs. -/
theorem batchMetaOf_error_iff (db : DbState) (b : Path) :
    (∃ e, batchMetaOf db b = .error e) ↔
      (∃ r1 ∈ db, r1.batch = b ∧ r1.path = b) ∧
      (∃ r2 ∈ db, r2.batch = b ∧ r2.path ≠ b) := by
  rw [batchMetaOf_def]
  constructor
  · rintro ⟨e, he⟩
    split at he
    · rename_i hcond
      obtain ⟨hpos, hne⟩ := hcond
      constructor
      · have hlt : ((db.filter (fun r => r.batch == b)).filter
            (fun r => r.path != b)).length < (db.filter (fun r => r.batch == b)).length := by
          have hle := List.length_filter_le (fun r => r.path != b)
            (db.filter (fun r => r.batch == b))
          omega
        obtain ⟨r, hr, hnp⟩ := List.length_filter_lt_length_iff_exists.mp hlt
        have hr2 := List.mem_filter.mp hr
        refine ⟨r, hr2.1, by simpa using hr2.2, by simpa using hnp⟩
      · have hpos2 : ((db.filter (fun r => r.batch == b)).filter
            (fun r => r.path != b)) ≠ [] := by
          intro hnil
          rw [hnil] at hpos
          simp at hpos
        obtain ⟨r, hr⟩ := List.exists_mem_of_ne_nil _ hpos2
        have hr2 := List.mem_filter.mp hr
        have hr3 := List.mem_filter.mp hr2.1
        refine ⟨r, hr3.1, by simpa using hr3.2, by simpa using hr2.2⟩
    · cases he
  · rintro ⟨⟨r1, hr1, hb1, hp1⟩, ⟨r2, hr2, hb2, hp2⟩⟩
    have hcond : 0 < ((db.filter (fun r => r.batch == b)).filter
        (fun r => r.path != b)).length ∧
        ((db.filter (fun r => r.batch == b)).filter (fun r => r.path != b)).length ≠
          (db.filter (fun r => r.batch == b)).length := by
      constructor
      · have hr2g : r2 ∈ (db.filter (fun r => r.batch == b)).filter
            (fun r => r.path != b) := by
          refine List.mem_filter.mpr ⟨List.mem_filter.mpr ⟨hr2, by simpa using hb2⟩, ?_⟩
          simpa using hp2
        exact List.length_pos.mpr (List.ne_nil_of_mem hr2g)
      · have hr1g : r1 ∈ db.filter (fun r => r.batch == b) :=
          List.mem_filter.mpr ⟨hr1, by simpa using hb1⟩
        have hlt : ((db.filter (fun r => r.batch == b)).filter
            (fun r => r.path != b)).length < (db.filter (fun r => r.batch == b)).length :=
          List.length_filter_lt_length_iff_exists.mpr ⟨r1, hr1g, by simp [hp1]⟩
        omega
    exact ⟨_, by rw [if_pos hcond]⟩

/-- The row loop fails exactly when some listed group fails. -/
theorem existingBatchesGo_error_iff (db : DbState) : ∀ keys : List Path,
    (∃ e, existingBatchesGo db keys = .error e) ↔
      ∃ b ∈ keys, ∃ e, batchMetaOf db b = .error e
  | [] => by simp [existingBatchesGo]
  | b :: rest => by
    unfold existingBatchesGo
    cases hb : batchMetaOf db b with
    | error e =>
      constructor
      · intro _
        exact ⟨b, List.mem_cons_self b rest, e, hb⟩
      · intro _
        exact ⟨e, rfl⟩
    | ok m =>
      cases hrest : existingBatchesGo db rest with
      | error e2 =>
        constructor
        · intro _
          have := (existingBatchesGo_error_iff db rest).mp ⟨e2, hrest⟩
          obtain ⟨b2, hb2, he2⟩ := this
          exact ⟨b2, List.mem_cons_of_mem b hb2, he2⟩
        · intro _
          exact ⟨e2, by simp [hrest]⟩
      | ok ms =>
        constructor
        · rintro ⟨e, he⟩
          simp [hrest] at he
        · rintro ⟨b2, hb2, e2, he2⟩
          rcases List.mem_cons.mp hb2 with rfl | hb2
          · rw [hb] at he2
            cases he2
          · have := (existingBatchesGo_error_iff db rest).mpr ⟨b2, hb2, e2, he2⟩
            obtain ⟨e3, he3⟩ := this
            rw [hrest] at he3
            cases he3

/-- The row loop's successful output, rowwise. -/
theorem existingBatchesGo_ok (db : DbState) : ∀ (keys : List Path) (ms : List BatchMeta),
    existingBatchesGo db keys = .ok ms →
    ms.map (fun m => m.path) = keys ∧ ∀ m ∈ ms, batchMetaOf db m.path = .ok m
  | [], ms, h => by
    cases h
    exact ⟨rfl, by simp⟩
  | b :: rest, ms, h => by
    unfold existingBatchesGo at h
    cases hb : batchMetaOf db b with
    | error e => rw [hb] at h; cases h
    | ok m =>
      rw [hb] at h
      cases hrest : existingBatchesGo db rest with
      | error e2 => rw [hrest] at h; cases h
      | ok ms2 =>
        rw [hrest] at h
        cases h
        obtain ⟨hmap, hall⟩ := existingBatchesGo_ok db rest ms2 hrest
        have hmp : m.path = b := (batchMetaOf_ok_iff db b m hb).1
        refine ⟨by simp [hmap, hmp], ?_⟩
        intro m2 hm2
        rcases List.mem_cons.mp hm2 with rfl | hm2
        · rw [hmp]; exact hb
        · exact hall m2 hm2

/-- C9: listing the manifest's batches fails exactly when some batch
group mixes a member whose path equals the batch value with one whose
path differs; on success it returns one `BatchMeta` per distinct batch
value, marked single-file exactly when every member's path equals the
batch value. -/
theorem C9_existing_batches (db : DbState) :
    ((∃ e, getExistingBatches db = .error e) ↔
      ∃ b, (∃ r1 ∈ db, r1.batch = b ∧ r1.path = b) ∧
           (∃ r2 ∈ db, r2.batch = b ∧ r2.path ≠ b)) ∧
    (∀ ms, getExistingBatches db = .ok ms →
      (ms.map (fun m => m.path)).Nodup ∧
      (∀ b, b ∈ ms.map (fun m => m.path) ↔ ∃ r ∈ db, r.batch = b) ∧
      (∀ m ∈ ms, (m.isSingleFile = true ↔ ∀ r ∈ db, r.batch = m.path → r.path = m.path))) := by
  constructor
  · rw [getExistingBatches, existingBatchesGo_error_iff]
    constructor
    · rintro ⟨b, _, he⟩
      exact ⟨b, (batchMetaOf_error_iff db b).mp he⟩
    · rintro ⟨b, h1, h2⟩
      refine ⟨b, ?_, (batchMetaOf_error_iff db b).mpr ⟨h1, h2⟩⟩
      obtain ⟨r1, hr1, hb1, _⟩ := h1
      rw [dedupFirst, mem_dedupFirstGo]
      exact ⟨List.mem_map.mpr ⟨r1, hr1, hb1⟩, by simp⟩
  · intro ms hok
    rw [getExistingBatches] at hok
    obtain ⟨hmap, hall⟩ := existingBatchesGo_ok db _ ms hok
    refine ⟨?_, ?_, ?_⟩
    · rw [hmap, dedupFirst]
      exact nodup_dedupFirstGo _ []
    · intro b
      rw [hmap, dedupFirst, mem_dedupFirstGo]
      simp
    · intro m hm
      exact (batchMetaOf_ok_iff db m.path m (hall m hm)).2

/-- C2 failing input: backing up a one-file tree from the absolute
root `r` and then running the identical backup again re-archives and
re-uploads the batch (the change detector looks the file up under the
root-joined walk path `r/a.txt` while `markFile` recorded it under the
relative path `a.txt`, so the second run classifies it as `Add`/`New`)
— the manifest stays byte-identical, but the second run's upload list
is non-empty where the claim requires no uploads. -/
theorem C2_second_backup_reuploads :
    backupFilesM hash0 c2tree [] [] ["r"] ["backups"] "n" 10 false false =
      .ok (c2db1, c2store1, [["backups", "n", "a.txt.tar.gz"]]) ∧
    backupFilesM hash0 c2tree c2db1 c2store1 ["r"] ["backups"] "n" 10 false false =
      .ok (c2db1, c2store1, [["backups", "n", "a.txt.tar.gz"]]) ∧
    ([["backups", "n", "a.txt.tar.gz"]] : List Path) ≠ [] ∧
    (doesFileNeedBackup hash0 c2db1 (["r"] ++ ["a.txt"]) (mkFileC "a.txt" 5)).1 = true := by
  refine ⟨rfl, rfl, by decide, rfl⟩

/-- Witness for `C9_existing_batches`: a manifest with a single-file
batch `a` and a grouped batch `d` lists both groups. -/
theorem C9_existing_batches_witness :
    (([{ path := ["a"], isSingleFile := true },
       { path := ["d"], isSingleFile := false }] : List BatchMeta).map
        (fun m => m.path)).Nodup ∧
    (∀ b, b ∈ ([{ path := ["a"], isSingleFile := true },
       { path := ["d"], isSingleFile := false }] : List BatchMeta).map (fun m => m.path) ↔
      ∃ r ∈ c9db, r.batch = b) ∧
    (∀ m ∈ ([{ path := ["a"], isSingleFile := true },
       { path := ["d"], isSingleFile := false }] : List BatchMeta),
      (m.isSingleFile = true ↔ ∀ r ∈ c9db, r.batch = m.path → r.path = m.path)) :=
  (C9_existing_batches c9db).2 _ rfl

/-! ### Path utilities -/

/-- `filepath.Rel` strips a common prefix componentwise. -/
theorem relPath_append (a : Path) : ∀ b c : Path, relPath (a ++ b) (a ++ c) = relPath b c := by
  induction a with
  | nil => intro b c; rfl
  | cons x a ih =>
    intro b c
    simp only [List.cons_append, relPath, beq_self_eq_true, if_true]
    exact ih b c

/-- `filepath.Rel base (base ++ rest) = rest`. -/
theorem relPath_self (a : Path) : ∀ r : Path, relPath a (a ++ r) = r := by
  intro r
  have h := relPath_append a [] r
  rw [List.append_nil] at h
  simpa [relPath] using h

/-- Appending a suffix string to the last component of a non-empty
path. -/
theorem withSuffix_snoc (sfx : String) : ∀ (q : Path) (n : String),
    withSuffix sfx (q ++ [n]) = q ++ [n ++ sfx]
  | [], _ => rfl
  | [_], _ => rfl
  | x :: y :: q, n => by
    have ih := withSuffix_snoc sfx (y :: q) n
    show x :: withSuffix sfx (y :: q ++ [n]) = _
    rw [ih]
    rfl

/-- A path properly extended by a non-empty suffix differs from the
base. -/
theorem ne_of_proper_extension (a : Path) (s : Path) (hs : s ≠ []) : a ++ s ≠ a := by
  intro h
  have h2 : (a ++ s).length = a.length := by rw [h]
  rw [List.length_append] at h2
  have h3 : s.length = 0 := by omega
  exact hs (List.length_eq_zero.mp h3)

/-! ### Pop-loop structure -/

/-- The pop loop splits its input: the popped files followed by the
remainder are exactly the input list. -/
theorem popLargest_partition (T : Int) : ∀ (fs : List BFile) (sum : Int),
    ((popLargest T fs sum).1.map (fun b => b.files)).flatten ++
      (popLargest T fs sum).2.1 = fs
  | [], sum => by simp [popLargest]
  | f :: rest, sum => by
    unfold popLargest
    by_cases h : sum > T
    · simp only [h, if_true, List.map_cons, List.flatten_cons, List.cons_append,
        List.singleton_append, List.append_assoc]
      rw [popLargest_partition T rest (sum - f.fileSize)]
      rfl
    · simp [h]

/-- One local row produces no change line exactly when it does not
drift. -/
theorem compareEntryLocal_eq_nil (r : DbState) (x : DbRecord) :
    compareEntryLocal r x = [] ↔ ¬ recordDrift r x := by
  unfold compareEntryLocal recordDrift
  cases hget : getFileInfo r x.path with
  | none => simp
  | some y =>
    by_cases h1 : x.modTimeMs = y.modTimeMs <;>
      by_cases h2 : x.hash = y.hash <;>
      by_cases h3 : x.batch = y.batch <;>
      simp [h1, h2, h3]

/-- One remote row produces no change line exactly when its path
exists locally. -/
theorem compareEntryRemote_eq_nil (l : DbState) (y : DbRecord) :
    compareEntryRemote l y = [] ↔ ¬ getFileInfo l y.path = none := by
  unfold compareEntryRemote
  cases hget : getFileInfo l y.path <;> simp

/-- The comparison reports no changes exactly when the two manifests
agree on all record fields and on the set of paths. -/
theorem compareDbs_eq_nil_iff (l r : DbState) :
    compareDbs l r = [] ↔ ¬ manifestsDiffer l r := by
  unfold compareDbs manifestsDiffer
  rw [List.append_eq_nil, List.flatten_eq_nil_iff, List.flatten_eq_nil_iff]
  push_neg
  constructor
  · rintro ⟨h1, h2⟩
    refine ⟨fun x hx hdrift => ?_, fun y hy => ?_⟩
    · exact (compareEntryLocal_eq_nil r x).mp (h1 _ (List.mem_map_of_mem _ hx)) hdrift
    · exact (compareEntryRemote_eq_nil l y).mp (h2 _ (List.mem_map_of_mem _ hy))
  · rintro ⟨h1, h2⟩
    refine ⟨fun a ha => ?_, fun a ha => ?_⟩
    · obtain ⟨x, hx, rfl⟩ := List.mem_map.mp ha
      exact (compareEntryLocal_eq_nil r x).mpr (h1 x hx)
    · obtain ⟨y, hy, rfl⟩ := List.mem_map.mp ha
      exact (compareEntryRemote_eq_nil l y).mpr (h2 y hy)

/-- C4: the drift gate aborts exactly when a local manifest exists, a
remote manifest was found, the two manifests differ in some record's
`(mod_time, hash, batch)` fields or in the set of paths, and `force`
is unset; with no local manifest or a remote `NotFound` the comparison
reports no changes and the backup proceeds fresh. -/
theorem C4_remote_drift_gate (localDbExists force : Bool) (l : DbState)
    (remote? : Option DbState) :
    ((∃ e, backupDriftCheck localDbExists l remote? force = .error e) ↔
      localDbExists = true ∧ (∃ rm, remote? = some rm ∧ manifestsDiffer l rm) ∧
        force = false) ∧
    downloadAndCompareDB false l remote? = [] ∧
    downloadAndCompareDB localDbExists l none = [] := by
  refine ⟨?_, by simp [downloadAndCompareDB], by cases localDbExists <;> simp [downloadAndCompareDB]⟩
  unfold backupDriftCheck downloadAndCompareDB
  cases localDbExists with
  | false => simp
  | true =>
    cases remote? with
    | none => simp
    | some rm =>
      by_cases hne : compareDbs l rm = []
      · have hd := (compareDbs_eq_nil_iff l rm).mp hne
        simp [hne, hd]
      · have hdif : manifestsDiffer l rm := by
          by_contra hc
          exact hne ((compareDbs_eq_nil_iff l rm).mpr hc)
        cases force with
        | false => simp [hne, hdif]
        | true => simp [hne]

/-- Members of a flatten of a filtered list belong to a member of the
original list. -/
theorem mem_flatten_filter {α : Type} {p : List α → Bool} {ls : List (List α)} {b : α}
    (hb : b ∈ (ls.filter p).flatten) : ∃ l ∈ ls, b ∈ l := by
  rcases List.mem_flatten.mp hb with ⟨l, hl, hbl⟩
  exact ⟨l, (List.mem_filter.mp hl).1, hbl⟩

/-- Every batch emitted by the pop loop holds exactly the popped file,
rooted at that file's path. -/
theorem popLargest_singles (T : Int) : ∀ (fs : List BFile) (sum : Int) (b : BackupBatch),
    b ∈ (popLargest T fs sum).1 →
    ∃ f ∈ fs, b = { root := f.path, totalSize := f.fileSize, files := [f] }
  | [], sum, b, hb => by simp [popLargest] at hb
  | f :: rest, sum, b, hb => by
    unfold popLargest at hb
    by_cases h : sum > T
    · simp only [h, if_true, List.mem_cons] at hb
      rcases hb with hb | hb
      · exact ⟨f, List.mem_cons_self f rest, hb⟩
      · obtain ⟨g, hg, hbg⟩ := popLargest_singles T rest (sum - f.fileSize) b hb
        exact ⟨g, List.mem_cons_of_mem f hg, hbg⟩
    · simp [h] at hb

/-- When the pop loop leaves a non-empty remainder, the remaining sum
is at or below the threshold. -/
theorem popLargest_rem_le (T : Int) : ∀ (fs : List BFile) (sum : Int),
    (popLargest T fs sum).2.1 ≠ [] → (popLargest T fs sum).2.2 ≤ T
  | [], sum, h => by simp [popLargest] at h
  | f :: rest, sum, h => by
    unfold popLargest at h ⊢
    by_cases hc : sum > T
    · simp only [hc, if_true] at h ⊢
      exact popLargest_rem_le T rest (sum - f.fileSize) h
    · simp only [hc, if_false]
      omega

/-- Each batch of Phase A is a lone popped file or fits the threshold. -/
theorem phaseA_cases (T : Int) (relRoot : Path) (df : List BFile) (b : BackupBatch)
    (hb : b ∈ phaseA T relRoot df) :
    (∃ f, b = { root := f.path, totalSize := f.fileSize, files := [f] }) ∨
    b.totalSize ≤ T := by
  unfold phaseA at hb
  by_cases hdf : df = []
  · simp [hdf] at hb
  · simp only [hdf, if_false] at hb
    by_cases hsum : sumSizes df ≤ T
    · simp only [hsum, if_true, List.mem_singleton] at hb
      right
      rw [hb]
      exact hsum
    · simp only [hsum, if_false] at hb
      by_cases hrem : (popLargest T (sortSizeDesc df) (sumSizes df)).2.1 = []
      · simp only [hrem, if_true] at hb
        left
        obtain ⟨f, _, hf⟩ := popLargest_singles T _ _ b hb
        exact ⟨f, hf⟩
      · simp only [hrem, if_false, List.mem_append, List.mem_singleton] at hb
        rcases hb with hb | hb
        · left
          obtain ⟨f, _, hf⟩ := popLargest_singles T _ _ b hb
          exact ⟨f, hf⟩
        · right
          rw [hb]
          exact popLargest_rem_le T _ _ hrem

/-- The planner at one directory node is the combination step applied
to the collected local files and the subdirectory plans. -/
theorem getFilesToBackup_node (hashFn : List Nat → Nat) (db : DbState) (root : Path)
    (T : Int) (relDir : Path) (files : List SrcFile) (ds : FsDirList) :
    getFilesToBackup hashFn db root T relDir (FsTree.node files ds) =
      planCombine T relDir (collectDirFiles hashFn db root relDir files)
        (planSubdirs hashFn db root T relDir ds) := rfl

/-- Every batch of the combination step comes from Phase A on the
local files, from a subdirectory's plan, or is the rollup batch, whose
root is the directory, whose files concatenate the Phase-A and rollup
candidates' files, and whose size fits the threshold. -/
theorem planCombine_cases (T : Int) (relDir : Path) (df : List BFile)
    (sls : List (List BackupBatch)) (b : BackupBatch)
    (hb : b ∈ planCombine T relDir df sls) :
    b ∈ phaseA T relDir df ∨ (∃ l ∈ sls, b ∈ l) ∨
    (b.root = relDir ∧
     b.files = ((phaseA T relDir df).map (fun x => x.files)).flatten ++
       (((sls.filter (fun l => ¬ l.length > 1)).flatten).map (fun x => x.files)).flatten ∧
     (sls.filter (fun l => ¬ l.length > 1)).flatten ≠ [] ∧
     b.totalSize ≤ T) := by
  simp only [planCombine] at hb
  by_cases hsp : df = [] ∧ (sls.filter (fun l => l.length > 1)).flatten = [] ∧
      ((sls.filter (fun l => ¬ l.length > 1)).flatten).length = 1
  · rw [if_pos hsp] at hb
    exact Or.inr (Or.inl (mem_flatten_filter hb))
  · rw [if_neg hsp] at hb
    by_cases hroll : (phaseA T relDir df).length ≤ 1 ∧
        (sls.filter (fun l => ¬ l.length > 1)).flatten ≠ [] ∧
        (sls.filter (fun l => l.length > 1)).flatten = []
    · rw [if_pos hroll] at hb
      by_cases hts : sumBatches ((sls.filter (fun l => ¬ l.length > 1)).flatten) +
          sumBatches (phaseA T relDir df) ≤ T
      · rw [if_pos hts] at hb
        simp only [List.mem_singleton] at hb
        right; right
        rw [hb]
        exact ⟨rfl, rfl, hroll.2.1, hts⟩
      · rw [if_neg hts] at hb
        simp only [List.mem_append] at hb
        rcases hb with (hb | hb) | hb
        · exact Or.inl hb
        · exact Or.inr (Or.inl (mem_flatten_filter hb))
        · exact Or.inr (Or.inl (mem_flatten_filter hb))
    · rw [if_neg hroll] at hb
      simp only [List.mem_append] at hb
      rcases hb with (hb | hb) | hb
      · exact Or.inl hb
      · exact Or.inr (Or.inl (mem_flatten_filter hb))
      · exact Or.inr (Or.inl (mem_flatten_filter hb))

/-- Every batch the planner emits at a directory node comes from Phase
A on the local files, from a subdirectory's plan, or is the rollup
batch, which fits the threshold. -/
theorem mem_planner_node_cases (hashFn : List Nat → Nat) (db : DbState) (root : Path)
    (T : Int) (relDir : Path) (files : List SrcFile) (ds : FsDirList) (b : BackupBatch)
    (hb : b ∈ getFilesToBackup hashFn db root T relDir (FsTree.node files ds)) :
    b ∈ phaseA T relDir (collectDirFiles hashFn db root relDir files) ∨
    (∃ l ∈ planSubdirs hashFn db root T relDir ds, b ∈ l) ∨
    b.totalSize ≤ T := by
  rw [getFilesToBackup_node] at hb
  rcases planCombine_cases T relDir _ _ b hb with h | h | h
  · exact Or.inl h
  · exact Or.inr (Or.inl h)
  · exact Or.inr (Or.inr h.2.2.2)

/-- Inserting keeps a permutation. -/
theorem insertDesc_perm (f : BFile) : ∀ l : List BFile, (insertDesc f l).Perm (f :: l)
  | [] => List.Perm.refl _
  | g :: rest => by
    unfold insertDesc
    by_cases h : f.fileSize > g.fileSize
    · simp [h]
    · simp only [h, if_false]
      exact ((insertDesc_perm f rest).cons g).trans (List.Perm.swap f g rest)

/-- The descending insertion sort permutes its input. -/
theorem sortSizeDesc_perm : ∀ l : List BFile, (sortSizeDesc l).Perm l
  | [] => List.Perm.refl _
  | f :: rest =>
    (insertDesc_perm f (sortSizeDesc rest)).trans ((sortSizeDesc_perm rest).cons f)

/-- Inserting preserves the size-descending order. -/
theorem insertDesc_sorted (f : BFile) :
    ∀ l : List BFile, l.Pairwise (fun a b => b.fileSize ≤ a.fileSize) →
    (insertDesc f l).Pairwise (fun a b => b.fileSize ≤ a.fileSize)
  | [], _ => by simp [insertDesc]
  | g :: rest, h => by
    unfold insertDesc
    rcases List.pairwise_cons.mp h with ⟨hg, hrest⟩
    by_cases hf : f.fileSize > g.fileSize
    · simp only [hf, if_true]
      refine List.pairwise_cons.mpr ⟨?_, h⟩
      intro x hx
      rcases List.mem_cons.mp hx with rfl | hx
      · omega
      · have := hg x hx
        omega
    · simp only [hf, if_false]
      refine List.pairwise_cons.mpr ⟨?_, insertDesc_sorted f rest hrest⟩
      intro x hx
      have hx2 := (insertDesc_perm f rest).mem_iff.mp hx
      rcases List.mem_cons.mp hx2 with rfl | hx2
      · omega
      · exact hg x hx2

/-- The descending insertion sort yields a size-descending list. -/
theorem sortSizeDesc_sorted : ∀ l : List BFile,
    (sortSizeDesc l).Pairwise (fun a b => b.fileSize ≤ a.fileSize)
  | [] => by simp [sortSizeDesc]
  | f :: rest => insertDesc_sorted f (sortSizeDesc rest) (sortSizeDesc_sorted rest)

/-- `singletonRoot` is the lone file's path or the directory. -/
theorem singletonRoot_cases (relDir : Path) (l : List BFile) :
    (∃ f, l = [f] ∧ singletonRoot relDir l = f.path) ∨ singletonRoot relDir l = relDir := by
  match l with
  | [] => exact Or.inr rfl
  | [f] => exact Or.inl ⟨f, rfl, rfl⟩
  | f :: g :: rest => exact Or.inr rfl

/-- The pop loop's remainder consists of input files. -/
theorem popLargest_rem_subset (T : Int) (fs : List BFile) (sum : Int) (x : BFile)
    (hx : x ∈ (popLargest T fs sum).2.1) : x ∈ fs := by
  rw [← popLargest_partition T fs sum]
  exact List.mem_append_right _ hx

/-- Phase A only redistributes the collected files. -/
theorem phaseA_files_sub (T : Int) (relDir : Path) (df : List BFile) (b : BackupBatch)
    (hb : b ∈ phaseA T relDir df) : ∀ f ∈ b.files, f ∈ df := by
  intro f hf
  unfold phaseA at hb
  by_cases h0 : df = []
  · simp [h0] at hb
  · simp only [h0, if_false] at hb
    by_cases hsum : sumSizes df ≤ T
    · simp only [hsum, if_true, List.mem_singleton] at hb
      rw [hb] at hf
      exact hf
    · simp only [hsum, if_false] at hb
      by_cases hrem : (popLargest T (sortSizeDesc df) (sumSizes df)).2.1 = []
      · simp only [hrem, if_true] at hb
        obtain ⟨g, hg, rfl⟩ := popLargest_singles T _ _ b hb
        simp only [List.mem_singleton] at hf
        rw [hf]
        exact (sortSizeDesc_perm df).mem_iff.mp hg
      · simp only [hrem, if_false, List.mem_append, List.mem_singleton] at hb
        rcases hb with hb | hb
        · obtain ⟨g, hg, rfl⟩ := popLargest_singles T _ _ b hb
          simp only [List.mem_singleton] at hf
          rw [hf]
          exact (sortSizeDesc_perm df).mem_iff.mp hg
        · rw [hb] at hf
          exact (sortSizeDesc_perm df).mem_iff.mp (popLargest_rem_subset T _ _ f hf)

/-- Every Phase-A batch is structurally well-formed, provided the
collected files' paths properly extend the directory. -/
theorem phaseA_BatchOK (T : Int) (relDir : Path) (df : List BFile)
    (hdf : ∀ f ∈ df, ∃ s, s ≠ [] ∧ f.path = relDir ++ s) :
    ∀ b ∈ phaseA T relDir df, BatchOK relDir b := by
  intro b hb
  have hsub := phaseA_files_sub T relDir df b hb
  have hpaths : ∀ f ∈ b.files, ∃ s, s ≠ [] ∧ f.path = relDir ++ s :=
    fun f hf => hdf f (hsub f hf)
  unfold phaseA at hb
  by_cases h0 : df = []
  · simp [h0] at hb
  · simp only [h0, if_false] at hb
    by_cases hsum : sumSizes df ≤ T
    · simp only [hsum, if_true, List.mem_singleton] at hb
      subst hb
      refine ⟨h0, hpaths, ?_⟩
      rcases singletonRoot_cases relDir df with ⟨f, hdf1, hroot⟩ | hroot
      · left
        simp [hdf1]
      · right
        intro f hf
        rw [hroot]
        exact hpaths f hf
    · simp only [hsum, if_false] at hb
      by_cases hrem : (popLargest T (sortSizeDesc df) (sumSizes df)).2.1 = []
      · simp only [hrem, if_true] at hb
        obtain ⟨g, _, rfl⟩ := popLargest_singles T _ _ b hb
        exact ⟨by simp, hpaths, Or.inl rfl⟩
      · simp only [hrem, if_false, List.mem_append, List.mem_singleton] at hb
        rcases hb with hb | hb
        · obtain ⟨g, _, rfl⟩ := popLargest_singles T _ _ b hb
          exact ⟨by simp, hpaths, Or.inl rfl⟩
        · subst hb
          refine ⟨hrem, hpaths, ?_⟩
          rcases singletonRoot_cases relDir (popLargest T (sortSizeDesc df)
              (sumSizes df)).2.1 with ⟨f, hr1, hroot⟩ | hroot
          · left
            simp [hr1]
          · right
            intro f hf
            rw [hroot]
            exact hpaths f hf

/-- A batch well-formed under a subdirectory is well-formed under its
parent. -/
theorem BatchOK_weaken (relDir : Path) (n : String) (b : BackupBatch)
    (h : BatchOK (relDir ++ [n]) b) : BatchOK relDir b := by
  obtain ⟨h1, h2, h3⟩ := h
  refine ⟨h1, ?_, h3⟩
  intro f hf
  obtain ⟨s, hs, hp⟩ := h2 f hf
  exact ⟨[n] ++ s, by simp, by simpa using hp⟩

/-- Collected local files and their provenance. -/
theorem collectDirFiles_mem (hashFn : List Nat → Nat) (db : DbState) (root relDir : Path)
    (files : List SrcFile) (bf : BFile)
    (hbf : bf ∈ collectDirFiles hashFn db root relDir files) :
    ∃ f ∈ files, f.name ≠ "backup.db" ∧
      bf = { path := relDir ++ [f.name], fileSize := (f.content.length : Int),
             isDirty := (doesFileNeedBackup hashFn db (root ++ relDir ++ [f.name]) f).1 } := by
  unfold collectDirFiles at hbf
  obtain ⟨f, hf, rfl⟩ := List.mem_map.mp hbf
  have hf2 := List.mem_filter.mp hf
  exact ⟨f, hf2.1, by simpa using hf2.2, rfl⟩

/-- Subdirectory plans come from a named subdirectory. -/
theorem mem_planSubdirs (hashFn : List Nat → Nat) (db : DbState) (root : Path) (T : Int)
    (relDir : Path) : ∀ (ds : FsDirList) (l : List BackupBatch),
    l ∈ planSubdirs hashFn db root T relDir ds →
    ∃ n sub, (n, sub) ∈ ds.toList ∧ l = getFilesToBackup hashFn db root T (relDir ++ [n]) sub
  | .nil, l, hl => by simp [planSubdirs] at hl
  | .cons n t rest, l, hl => by
    rcases List.mem_cons.mp hl with rfl | hl
    · exact ⟨n, t, by simp [FsDirList.toList], rfl⟩
    · obtain ⟨n2, sub2, hmem, heq⟩ := mem_planSubdirs hashFn db root T relDir rest l hl
      exact ⟨n2, sub2, by simp [FsDirList.toList, hmem], heq⟩

/-- Every planned batch is structurally well-formed. -/
theorem plan_BatchOK (hashFn : List Nat → Nat) (db : DbState) (root : Path) (T : Int) :
    ∀ (t : FsTree) (relDir : Path) (b : BackupBatch),
    b ∈ getFilesToBackup hashFn db root T relDir t → BatchOK relDir b := by
  refine fsTreeInd
    (fun t => ∀ relDir b, b ∈ getFilesToBackup hashFn db root T relDir t → BatchOK relDir b)
    (fun ds => ∀ relDir l, l ∈ planSubdirs hashFn db root T relDir ds →
      ∀ b ∈ l, BatchOK relDir b)
    ?_ ?_ ?_
  · intro fs ds hQ relDir b hb
    rw [getFilesToBackup_node] at hb
    have hdf : ∀ f ∈ collectDirFiles hashFn db root relDir fs,
        ∃ s, s ≠ [] ∧ f.path = relDir ++ s := by
      intro f hf
      obtain ⟨g, _, _, rfl⟩ := collectDirFiles_mem hashFn db root relDir fs f hf
      exact ⟨[g.name], by simp, rfl⟩
    rcases planCombine_cases T relDir _ _ b hb with hph | ⟨l, hl, hbl⟩ | ⟨hroot, hfiles, hmrb, _⟩
    · exact phaseA_BatchOK T relDir _ hdf b hph
    · exact hQ relDir l hl b hbl
    · have hsubfile : ∀ f ∈ b.files, ∃ s, s ≠ [] ∧ f.path = relDir ++ s := by
        intro f hf
        rw [hfiles] at hf
        rcases List.mem_append.mp hf with hf | hf
        · obtain ⟨bfs, hbfs, hfbfs⟩ := List.mem_flatten.mp hf
          obtain ⟨b2, hb2, rfl⟩ := List.mem_map.mp hbfs
          exact (phaseA_BatchOK T relDir _ hdf b2 hb2).2.1 f hfbfs
        · obtain ⟨bfs, hbfs, hfbfs⟩ := List.mem_flatten.mp hf
          obtain ⟨b2, hb2, rfl⟩ := List.mem_map.mp hbfs
          obtain ⟨l, hl, hb2l⟩ := mem_flatten_filter hb2
          exact (hQ relDir l hl b2 hb2l).2.1 f hfbfs
      refine ⟨?_, hsubfile, ?_⟩
      · intro hempty
        obtain ⟨m, hm⟩ := List.exists_mem_of_ne_nil _ hmrb
        obtain ⟨l, hl, hml⟩ := mem_flatten_filter hm
        have hmOK := hQ relDir l hl m hml
        obtain ⟨mf, hmf⟩ := List.exists_mem_of_ne_nil _ hmOK.1
        have : mf ∈ b.files := by
          rw [hfiles]
          refine List.mem_append_right _ (List.mem_flatten.mpr ?_)
          exact ⟨m.files, List.mem_map_of_mem _ hm, hmf⟩
        rw [hempty] at this
        simp at this
      · right
        intro f hf
        obtain ⟨s, hs, hp⟩ := hsubfile f hf
        rw [hroot]
        exact ⟨s, hs, hp⟩
  · intro relDir l hl
    simp [planSubdirs] at hl
  · intro n t rest hP hQ relDir l hl b hbl
    rcases List.mem_cons.mp hl with rfl | hl
    · exact BatchOK_weaken relDir n b (hP (relDir ++ [n]) b hbl)
    · exact hQ relDir l hl b hbl

/-- With distinct names, `find?` by name returns the member itself. -/
theorem find?_name_unique : ∀ (files : List SrcFile), (files.map SrcFile.name).Nodup →
    ∀ f ∈ files, files.find? (fun g => g.name == f.name) = some f
  | [], _, f, hf => by simp at hf
  | g :: rest, hnd, f, hf => by
    rcases List.mem_cons.mp hf with rfl | hf
    · simp [List.find?_cons_of_pos]
    · have hnd2 : g.name ∉ rest.map SrcFile.name ∧ (rest.map SrcFile.name).Nodup := by
        rw [List.map_cons, List.nodup_cons] at hnd
        exact hnd
      have hne : g.name ≠ f.name := by
        intro he
        exact hnd2.1 (he ▸ List.mem_map_of_mem SrcFile.name hf)
      rw [List.find?_cons_of_neg _ (by simpa using hne)]
      exact find?_name_unique rest hnd2.2 f hf

/-- The listed pairs' names are the directory names. -/
theorem toList_map_fst : ∀ ds : FsDirList, (ds.toList).map Prod.fst = dirNames ds
  | .nil => rfl
  | .cons n t rest => by simp [FsDirList.toList, dirNames, toList_map_fst rest]

/-- With distinct directory names, `findDir` returns the listed
subtree. -/
theorem findDir_unique : ∀ (ds : FsDirList), (dirNames ds).Nodup →
    ∀ n sub, (n, sub) ∈ ds.toList → findDir n ds = some sub
  | .nil, _, n, sub, h => by simp [FsDirList.toList] at h
  | .cons m t rest, hnd, n, sub, h => by
    have hnd2 : m ∉ dirNames rest ∧ (dirNames rest).Nodup := by
      rw [show dirNames (FsDirList.cons m t rest) = m :: dirNames rest from rfl,
        List.nodup_cons] at hnd
      exact hnd
    rcases List.mem_cons.mp h with heq | h
    · rw [Prod.mk.injEq] at heq
      obtain ⟨h1, h2⟩ := heq
      subst h1
      subst h2
      simp [findDir]
    · by_cases hmn : m = n
      · subst hmn
        exact absurd (by rw [← toList_map_fst rest]
                         exact List.mem_map_of_mem Prod.fst h) hnd2.1
      · simp only [findDir, beq_iff_eq, hmn, if_false]
        exact findDir_unique rest hnd2.2 n sub h

/-- `findFile` descends through a named subdirectory. -/
theorem findFile_cons (n : String) (s : Path) (hs : s ≠ []) (files : List SrcFile)
    (ds : FsDirList) (sub : FsTree) (hfd : findDir n ds = some sub) :
    findFile (n :: s) (FsTree.node files ds) = findFile s sub := by
  match s, hs with
  | x :: s2, _ =>
    show (match findDir n ds with
          | some sub => findFile (x :: s2) sub
          | none => none) = _
    rw [hfd]

/-- Every planned file is an actual file of the tree, carrying the
size and dirty flag the walk computed for it. -/
theorem plan_FileOK (hashFn : List Nat → Nat) (db : DbState) (root : Path) (T : Int) :
    ∀ (t : FsTree), treeWFb t = true →
    ∀ relDir b bf, b ∈ getFilesToBackup hashFn db root T relDir t → bf ∈ b.files →
      FileOK hashFn db root t relDir bf := by
  refine fsTreeInd
    (fun t => treeWFb t = true → ∀ relDir b bf,
      b ∈ getFilesToBackup hashFn db root T relDir t → bf ∈ b.files →
      FileOK hashFn db root t relDir bf)
    (fun ds => treeWFbList ds = true → ∀ relDir l b bf,
      l ∈ planSubdirs hashFn db root T relDir ds → b ∈ l → bf ∈ b.files →
      ∃ n sub, (n, sub) ∈ ds.toList ∧ treeWFb sub = true ∧
        FileOK hashFn db root sub (relDir ++ [n]) bf)
    ?_ ?_ ?_
  · intro fs ds hQ hwf relDir b bf hb hbf
    have hwf2 : ((fs.map SrcFile.name ++ dirNames ds).Nodup) ∧ treeWFbList ds = true := by
      have := hwf
      unfold treeWFb at this
      simpa using this
    have hlevel : ∀ g, g ∈ collectDirFiles hashFn db root relDir fs →
        FileOK hashFn db root (FsTree.node fs ds) relDir g := by
      intro g hg
      obtain ⟨f, hf, hfn, rfl⟩ := collectDirFiles_mem hashFn db root relDir fs g hg
      refine ⟨[f.name], f, by simp, ?_, by simp⟩
      show fs.find? (fun g => g.name == f.name) = some f
      exact find?_name_unique fs (List.Nodup.of_append_left hwf2.1) f hf
    have hsub : ∀ l b2 bf2, l ∈ planSubdirs hashFn db root T relDir ds → b2 ∈ l →
        bf2 ∈ b2.files → FileOK hashFn db root (FsTree.node fs ds) relDir bf2 := by
      intro l b2 bf2 hl hb2 hbf2
      obtain ⟨n, sub, hmem, hsubwf, s, src, hs, hfind, hbfeq⟩ :=
        hQ hwf2.2 relDir l b2 bf2 hl hb2 hbf2
      refine ⟨n :: s, src, by simp, ?_, ?_⟩
      · rw [findFile_cons n s hs fs ds sub ?_]
        · exact hfind
        · exact findDir_unique ds (List.Nodup.of_append_right hwf2.1) n sub hmem
      · rw [hbfeq]
        simp
    rw [getFilesToBackup_node] at hb
    rcases planCombine_cases T relDir _ _ b hb with hph | ⟨l, hl, hbl⟩ | ⟨_, hfiles, _, _⟩
    · exact hlevel bf (phaseA_files_sub T relDir _ b hph bf hbf)
    · exact hsub l b bf hl hbl hbf
    · rw [hfiles] at hbf
      rcases List.mem_append.mp hbf with hbf | hbf
      · obtain ⟨bfs, hbfs, hfbfs⟩ := List.mem_flatten.mp hbf
        obtain ⟨b2, hb2, rfl⟩ := List.mem_map.mp hbfs
        exact hlevel bf (phaseA_files_sub T relDir _ b2 hb2 bf hfbfs)
      · obtain ⟨bfs, hbfs, hfbfs⟩ := List.mem_flatten.mp hbf
        obtain ⟨b2, hb2, rfl⟩ := List.mem_map.mp hbfs
        obtain ⟨l, hl, hb2l⟩ := mem_flatten_filter hb2
        exact hsub l b2 bf hl hb2l hfbfs
  · intro _ relDir l b bf hl
    simp [planSubdirs] at hl
  · intro n t rest hP hQ hwf relDir l b bf hl hb hbf
    have hwf2 : treeWFb t = true ∧ treeWFbList rest = true := by
      have := hwf
      unfold treeWFbList at this
      simpa using this
    rcases List.mem_cons.mp hl with rfl | hl
    · exact ⟨n, t, by simp [FsDirList.toList], hwf2.1,
        hP hwf2.1 (relDir ++ [n]) b bf hb hbf⟩
    · obtain ⟨n2, sub2, hmem, hsubwf, hok⟩ := hQ hwf2.2 relDir l b bf hl hb hbf
      exact ⟨n2, sub2, by simp [FsDirList.toList, hmem], hsubwf, hok⟩

/-- `planPaths` distributes over appending batch lists. -/
theorem planPaths_append (a b : List BackupBatch) :
    planPaths (a ++ b) = planPaths a ++ planPaths b := by
  simp [planPaths]

/-- `planPaths` of one batch. -/
theorem planPaths_singleton (b : BackupBatch) :
    planPaths [b] = b.files.map (fun f => f.path) := by
  simp [planPaths]

/-- `planPaths` as mapping over the flattened file lists. -/
theorem planPaths_eq_flatten (bs : List BackupBatch) :
    planPaths bs = ((bs.map (fun b => b.files)).flatten).map (fun f => f.path) := by
  induction bs with
  | nil => rfl
  | cons b rest ih =>
    unfold planPaths at ih ⊢
    simp only [List.flatMap_cons, List.map_cons, List.flatten_cons, List.map_append, ih]

/-- Permuting batches permutes their paths. -/
theorem planPaths_perm_of_perm (l1 l2 : List BackupBatch) (h : List.Perm l1 l2) :
    List.Perm (planPaths l1) (planPaths l2) := by
  rw [planPaths_eq_flatten, planPaths_eq_flatten]
  exact ((h.map _).flatten).map _

/-- The collected files' paths are the non-ignored level files' paths. -/
theorem collectDirFiles_paths (hashFn : List Nat → Nat) (db : DbState) (root relDir : Path)
    (files : List SrcFile) :
    (collectDirFiles hashFn db root relDir files).map (fun f => f.path) =
      (files.filter (fun f => f.name != "backup.db")).map (fun f => relDir ++ [f.name]) := by
  unfold collectDirFiles
  rw [List.map_map]
  rfl

/-- Phase A permutes the collected files' paths. -/
theorem phaseA_paths_perm (T : Int) (relDir : Path) (df : List BFile) :
    List.Perm (planPaths (phaseA T relDir df)) (df.map (fun f => f.path)) := by
  unfold phaseA
  by_cases h0 : df = []
  · simp [h0, planPaths]
  · simp only [h0, if_false]
    by_cases hsum : sumSizes df ≤ T
    · simp only [hsum, if_true]
      simp [planPaths]
    · simp only [hsum, if_false]
      have hpart := popLargest_partition T (sortSizeDesc df) (sumSizes df)
      have hperm := (sortSizeDesc_perm df).map (fun f => f.path)
      by_cases hrem : (popLargest T (sortSizeDesc df) (sumSizes df)).2.1 = []
      · simp only [hrem, if_true]
        rw [hrem, List.append_nil] at hpart
        rw [planPaths_eq_flatten, hpart]
        exact hperm
      · simp only [hrem, if_false]
        rw [planPaths_append, planPaths_eq_flatten, planPaths_singleton]
        show List.Perm (_ ++ ((popLargest T (sortSizeDesc df) (sumSizes df)).2.1).map
          (fun f => f.path)) _
        rw [← List.map_append, hpart]
        exact hperm

/-- The paths of the combination step permute the collected paths
followed by all subdirectory-plan paths. -/
theorem planCombine_paths_perm (T : Int) (relDir : Path) (df : List BFile)
    (sls : List (List BackupBatch)) :
    List.Perm (planPaths (planCombine T relDir df sls))
      (df.map (fun f => f.path) ++ planPaths sls.flatten) := by
  have hsplit : List.Perm (planPaths ((sls.filter (fun l => l.length > 1)).flatten) ++
      planPaths ((sls.filter (fun l => ¬ l.length > 1)).flatten)) (planPaths sls.flatten) := by
    rw [← planPaths_append, ← List.flatten_append]
    refine planPaths_perm_of_perm _ _ (List.Perm.flatten ?_)
    have h := List.filter_append_perm (fun l : List BackupBatch => decide (l.length > 1)) sls
    simpa [← decide_not, Nat.not_lt] using h
  simp only [planCombine]
  by_cases hsp : df = [] ∧ (sls.filter (fun l => l.length > 1)).flatten = [] ∧
      ((sls.filter (fun l => ¬ l.length > 1)).flatten).length = 1
  · rw [if_pos hsp, hsp.1]
    simp only [List.map_nil, List.nil_append]
    rw [hsp.2.1] at hsplit
    simpa [planPaths] using hsplit
  · rw [if_neg hsp]
    by_cases hroll : (phaseA T relDir df).length ≤ 1 ∧
        (sls.filter (fun l => ¬ l.length > 1)).flatten ≠ [] ∧
        (sls.filter (fun l => l.length > 1)).flatten = []
    · rw [if_pos hroll]
      have hmrb : List.Perm (planPaths ((sls.filter (fun l => ¬ l.length > 1)).flatten))
          (planPaths sls.flatten) := by
        rw [hroll.2.2] at hsplit
        simpa [planPaths] using hsplit
      by_cases hts : sumBatches ((sls.filter (fun l => ¬ l.length > 1)).flatten) +
          sumBatches (phaseA T relDir df) ≤ T
      · rw [if_pos hts]
        rw [planPaths_singleton]
        show List.Perm ((((phaseA T relDir df).map (fun b => b.files)).flatten ++
          (((sls.filter (fun l => ¬ l.length > 1)).flatten).map
            (fun b => b.files)).flatten).map (fun f => f.path)) _
        rw [List.map_append, ← planPaths_eq_flatten, ← planPaths_eq_flatten]
        exact List.Perm.append (phaseA_paths_perm T relDir df) hmrb
      · rw [if_neg hts]
        rw [planPaths_append, planPaths_append, List.append_assoc]
        exact List.Perm.append (phaseA_paths_perm T relDir df) hsplit
    · rw [if_neg hroll]
      rw [planPaths_append, planPaths_append, List.append_assoc]
      exact List.Perm.append (phaseA_paths_perm T relDir df) hsplit

/-- The filtered level entries' destination paths. -/
theorem treeLevel_paths (relDir : Path) (files : List SrcFile) :
    ((files.map (fun f => ([f.name], f))).filter
      (fun pf => pf.2.name != "backup.db")).map (fun pf => relDir ++ pf.1) =
    (files.filter (fun f => f.name != "backup.db")).map (fun f => relDir ++ [f.name]) := by
  rw [List.filter_map, List.map_map]
  rfl

/-- The subdirectory entries' destination paths re-rooted. -/
theorem dir_paths_massage (relDir : Path) (n : String) (l : List (Path × SrcFile)) :
    ((l.map (fun pf => (n :: pf.1, pf.2))).filter
      (fun pf => pf.2.name != "backup.db")).map (fun pf => relDir ++ pf.1) =
    (l.filter (fun pf => pf.2.name != "backup.db")).map
      (fun pf => (relDir ++ [n]) ++ pf.1) := by
  rw [List.filter_map, List.map_map]
  show (l.filter (fun pf => pf.2.name != "backup.db")).map
    (fun pf => relDir ++ n :: pf.1) = _
  refine List.map_congr_left ?_
  intro pf _
  exact List.append_cons relDir n pf.1

/-- The planner's member paths are a permutation of the non-ignored
tree files' paths below the directory. -/
theorem plan_paths_perm (hashFn : List Nat → Nat) (db : DbState) (root : Path) (T : Int) :
    ∀ (t : FsTree) (relDir : Path),
    List.Perm (planPaths (getFilesToBackup hashFn db root T relDir t))
      (((treeFiles t).filter (fun pf => pf.2.name != "backup.db")).map
        (fun pf => relDir ++ pf.1)) := by
  refine fsTreeInd
    (fun t => ∀ relDir, List.Perm (planPaths (getFilesToBackup hashFn db root T relDir t))
      (((treeFiles t).filter (fun pf => pf.2.name != "backup.db")).map
        (fun pf => relDir ++ pf.1)))
    (fun ds => ∀ relDir,
      List.Perm (planPaths ((planSubdirs hashFn db root T relDir ds).flatten))
        (((treeFilesDirs ds).filter (fun pf => pf.2.name != "backup.db")).map
          (fun pf => relDir ++ pf.1)))
    ?_ ?_ ?_
  · intro fs ds hQ relDir
    rw [getFilesToBackup_node]
    refine List.Perm.trans (planCombine_paths_perm T relDir _ _) ?_
    have hexp : ((treeFiles (FsTree.node fs ds)).filter
        (fun pf => pf.2.name != "backup.db")).map (fun pf => relDir ++ pf.1) =
        ((fs.map (fun f => ([f.name], f))).filter
          (fun pf => pf.2.name != "backup.db")).map (fun pf => relDir ++ pf.1) ++
        ((treeFilesDirs ds).filter (fun pf => pf.2.name != "backup.db")).map
          (fun pf => relDir ++ pf.1) := by
      show (((fs.map (fun f => ([f.name], f)) ++ treeFilesDirs ds).filter
        (fun pf => pf.2.name != "backup.db")).map (fun pf => relDir ++ pf.1)) = _
      rw [List.filter_append, List.map_append]
    rw [hexp, treeLevel_paths, ← collectDirFiles_paths hashFn db root relDir fs]
    exact List.Perm.append (List.Perm.refl _) (hQ relDir)
  · intro relDir
    simp [planSubdirs, planPaths, treeFilesDirs]
  · intro n t rest hP hQ relDir
    show List.Perm (planPaths ((getFilesToBackup hashFn db root T (relDir ++ [n]) t ::
      planSubdirs hashFn db root T relDir rest).flatten)) _
    rw [List.flatten_cons, planPaths_append]
    have hexp : ((treeFilesDirs (FsDirList.cons n t rest)).filter
        (fun pf => pf.2.name != "backup.db")).map (fun pf => relDir ++ pf.1) =
        ((treeFiles t).filter (fun pf => pf.2.name != "backup.db")).map
          (fun pf => (relDir ++ [n]) ++ pf.1) ++
        ((treeFilesDirs rest).filter (fun pf => pf.2.name != "backup.db")).map
          (fun pf => relDir ++ pf.1) := by
      show ((((treeFiles t).map (fun pf => (n :: pf.1, pf.2)) ++ treeFilesDirs rest).filter
        (fun pf => pf.2.name != "backup.db")).map (fun pf => relDir ++ pf.1)) = _
      rw [List.filter_append, List.map_append, dir_paths_massage]
    rw [hexp]
    exact List.Perm.append (hP (relDir ++ [n])) (hQ relDir)

/-- Every subdirectory entry's path starts with a listed directory
name. -/
theorem treeFilesDirs_head : ∀ (ds : FsDirList) (pf : Path × SrcFile),
    pf ∈ treeFilesDirs ds → ∃ m p2, pf.1 = m :: p2 ∧ m ∈ dirNames ds
  | .nil, pf, h => by simp [treeFilesDirs] at h
  | .cons n t rest, pf, h => by
    unfold treeFilesDirs at h
    rcases List.mem_append.mp h with h | h
    · obtain ⟨qf, _, rfl⟩ := List.mem_map.mp h
      exact ⟨n, qf.1, rfl, by simp [dirNames]⟩
    · obtain ⟨m, p2, hpf, hm⟩ := treeFilesDirs_head rest pf h
      exact ⟨m, p2, hpf, by simp [dirNames, hm]⟩

/-- Tree entries have non-empty relative paths. -/
theorem treeFiles_path_ne_nil (t : FsTree) (pf : Path × SrcFile) (h : pf ∈ treeFiles t) :
    pf.1 ≠ [] := by
  match t with
  | FsTree.node files ds =>
    unfold treeFiles at h
    rcases List.mem_append.mp h with h | h
    · obtain ⟨f, _, rfl⟩ := List.mem_map.mp h
      simp
    · obtain ⟨m, p2, hpf, _⟩ := treeFilesDirs_head ds pf h
      simp [hpf]

/-- Every subdirectory entry's path has a listed directory name and a
non-empty remainder. -/
theorem treeFilesDirs_head2 : ∀ (ds : FsDirList) (pf : Path × SrcFile),
    pf ∈ treeFilesDirs ds → ∃ m p2, pf.1 = m :: p2 ∧ m ∈ dirNames ds ∧ p2 ≠ []
  | .nil, pf, h => by simp [treeFilesDirs] at h
  | .cons n t rest, pf, h => by
    unfold treeFilesDirs at h
    rcases List.mem_append.mp h with h | h
    · obtain ⟨qf, hqf, rfl⟩ := List.mem_map.mp h
      exact ⟨n, qf.1, rfl, by simp [dirNames], treeFiles_path_ne_nil t qf hqf⟩
    · obtain ⟨m, p2, hpf, hm, hp2⟩ := treeFilesDirs_head2 rest pf h
      exact ⟨m, p2, hpf, by simp [dirNames, hm], hp2⟩

/-- In a well-formed tree, the entries' relative paths are distinct. -/
theorem treeFiles_path_nodup :
    ∀ t : FsTree, treeWFb t = true → ((treeFiles t).map (fun pf => pf.1)).Nodup := by
  refine fsTreeInd
    (fun t => treeWFb t = true → ((treeFiles t).map (fun pf => pf.1)).Nodup)
    (fun ds => treeWFbList ds = true → (dirNames ds).Nodup →
      ((treeFilesDirs ds).map (fun pf => pf.1)).Nodup)
    ?_ ?_ ?_
  · intro fs ds hQ hwf
    have hwf2 : ((fs.map SrcFile.name ++ dirNames ds).Nodup) ∧ treeWFbList ds = true := by
      have := hwf
      unfold treeWFb at this
      simpa using this
    unfold treeFiles
    rw [List.map_append, List.map_map]
    refine List.Nodup.append ?_ ?_ ?_
    · have h1 : (fs.map SrcFile.name).Nodup := List.Nodup.of_append_left hwf2.1
      have hinj : Function.Injective (fun a : String => [a]) :=
        fun a b hab => by simpa using hab
      have h2 := h1.map hinj
      rw [List.map_map] at h2
      exact h2
    · exact hQ hwf2.2 (List.Nodup.of_append_right hwf2.1)
    · intro x hx hx2
      obtain ⟨f, _, rfl⟩ := List.mem_map.mp hx
      obtain ⟨pf, hpf, hfx⟩ := List.mem_map.mp hx2
      obtain ⟨m, p2, hpf2, _, hp2⟩ := treeFilesDirs_head2 ds pf hpf
      rw [hpf2] at hfx
      rcases p2 with _ | ⟨a, p3⟩
      · exact hp2 rfl
      · have hlen := congrArg List.length hfx
        simp [Function.comp] at hlen
  · intro _ _
    simp [treeFilesDirs]
  · intro n t rest hP hQ hwfl hnd
    have hwf2 : treeWFb t = true ∧ treeWFbList rest = true := by
      have := hwfl
      unfold treeWFbList at this
      simpa using this
    have hnd2 : n ∉ dirNames rest ∧ (dirNames rest).Nodup := by
      rw [show dirNames (FsDirList.cons n t rest) = n :: dirNames rest from rfl,
        List.nodup_cons] at hnd
      exact hnd
    unfold treeFilesDirs
    rw [List.map_append, List.map_map]
    refine List.Nodup.append ?_ (hQ hwf2.2 hnd2.2) ?_
    · have hinj : Function.Injective (fun p : Path => n :: p) :=
        fun a b hab => by simpa using hab
      have h1 := (hP hwf2.1).map hinj
      rw [List.map_map] at h1
      exact h1
    · intro x hx hx2
      obtain ⟨pf, _, rfl⟩ := List.mem_map.mp hx
      obtain ⟨qf, hqf, hfx⟩ := List.mem_map.mp hx2
      obtain ⟨m, p2, hqf2, hm, _⟩ := treeFilesDirs_head2 rest qf hqf
      rw [hqf2] at hfx
      have hhead : m = n := by
        have := congrArg (fun l => l.headD "") hfx
        simpa using this
      rw [hhead] at hm
      exact hnd2.1 hm

/-- The planner's member paths are distinct for a well-formed tree. -/
theorem plan_paths_nodup (hashFn : List Nat → Nat) (db : DbState) (root : Path) (T : Int)
    (t : FsTree) (relDir : Path) (hwf : treeWFb t = true) :
    (planPaths (getFilesToBackup hashFn db root T relDir t)).Nodup := by
  refine ((plan_paths_perm hashFn db root T t relDir).nodup_iff).mpr ?_
  have h1 : (((treeFiles t).filter (fun pf => pf.2.name != "backup.db")).map
      (fun pf => pf.1)).Nodup :=
    ((List.filter_sublist _).map _).nodup (treeFiles_path_nodup t hwf)
  have hinj : Function.Injective (fun p : Path => relDir ++ p) :=
    List.append_right_injective relDir
  have h2 := h1.map hinj
  rw [List.map_map] at h2
  exact h2

/-! ### Upload-phase characterization -/

/-- Upserting a fresh path appends the row. -/
theorem dbUpsert_fresh (db : DbState) (r : DbRecord)
    (h : r.path ∉ db.map (fun x => x.path)) : dbUpsert db r = db ++ [r] := by
  unfold dbUpsert
  rw [if_neg]
  intro hany
  obtain ⟨x, hx, hxp⟩ := List.any_eq_true.mp hany
  exact h (by
    rw [show r.path = x.path from (beq_iff_eq.mp hxp).symm]
    exact List.mem_map_of_mem _ hx)

/-- Upserting fresh, distinct paths appends the rows. -/
theorem dbUpsertAll_fresh : ∀ (rs : List DbRecord) (db : DbState),
    (∀ r ∈ rs, r.path ∉ db.map (fun x => x.path)) → (rs.map (fun x => x.path)).Nodup →
    dbUpsertAll db rs = db ++ rs
  | [], db, _, _ => by simp [dbUpsertAll]
  | r :: rest, db, hfresh, hnd => by
    have hnd2 : r.path ∉ rest.map (fun x => x.path) ∧ (rest.map (fun x => x.path)).Nodup := by
      rw [List.map_cons, List.nodup_cons] at hnd
      exact hnd
    show dbUpsertAll (dbUpsert db r) rest = _
    rw [dbUpsert_fresh db r (hfresh r (List.mem_cons_self r rest))]
    rw [dbUpsertAll_fresh rest (db ++ [r]) ?_ hnd2.2]
    · simp
    · intro x hx
      rw [List.map_append]
      intro hmem
      rcases List.mem_append.mp hmem with hmem | hmem
      · exact hfresh x (List.mem_cons_of_mem r hx) hmem
      · simp only [List.map_cons, List.map_nil, List.mem_singleton] at hmem
        exact hnd2.1 (hmem ▸ List.mem_map_of_mem _ hx)

/-- A batch's written rows are keyed by its member paths. -/
theorem batchRecords_paths (hashFn : List Nat → Nat) (tree : FsTree) (b : BackupBatch) :
    (batchRecords hashFn tree b).map (fun r => r.path) = b.files.map (fun f => f.path) := by
  unfold batchRecords
  match hf : b.files with
  | [] => rfl
  | [f] =>
    simp only [plannedRecord]
    cases hff : findFile f.path tree <;> simp [hff]
  | f1 :: f2 :: rest =>
    rw [List.map_map]
    refine List.map_congr_left ?_
    intro f _
    unfold plannedRecord
    cases hff : findFile f.path tree <;> simp [hff]

/-- `markFile` writes the planned row when the file exists. -/
theorem markFile_spec (hashFn : List Nat → Nat) (tree : FsTree) (db : DbState)
    (p bt : Path) (src : SrcFile) (hfind : findFile p tree = some src) :
    markFile hashFn tree db p bt = some (dbUpsert db (plannedRecord hashFn tree bt p)) := by
  unfold markFile plannedRecord
  rw [hfind]

/-- `markFiles` writes the planned rows in order when all files
exist. -/
theorem markFiles_spec (hashFn : List Nat → Nat) (tree : FsTree) (bt : Path) :
    ∀ (ps : List Path) (db : DbState),
    (∀ p ∈ ps, ∃ src, findFile p tree = some src) →
    markFiles hashFn tree bt db ps =
      some (dbUpsertAll db (ps.map (plannedRecord hashFn tree bt)))
  | [], db, _ => by simp [markFiles, dbUpsertAll]
  | p :: rest, db, hall => by
    obtain ⟨src, hsrc⟩ := hall p (List.mem_cons_self p rest)
    show (match markFile hashFn tree db p bt with
          | none => none
          | some db2 => markFiles hashFn tree bt db2 rest) = _
    rw [markFile_spec hashFn tree db p bt src hsrc]
    show markFiles hashFn tree bt (dbUpsert db (plannedRecord hashFn tree bt p)) rest = _
    rw [markFiles_spec hashFn tree bt rest _ (fun q hq => hall q (List.mem_cons_of_mem p hq))]
    rfl

/-- `archiveEntries` succeeds when every member exists. -/
theorem archiveEntries_isSome (tree : FsTree) (root batchRoot : Path) :
    ∀ ps : List Path, (∀ p ∈ ps, ∃ src, findFile p tree = some src) →
    ∃ es, archiveEntries tree root batchRoot ps = some es
  | [], _ => ⟨[], rfl⟩
  | p :: rest, hall => by
    obtain ⟨src, hsrc⟩ := hall p (List.mem_cons_self p rest)
    obtain ⟨es, hes⟩ := archiveEntries_isSome tree root batchRoot rest
      (fun q hq => hall q (List.mem_cons_of_mem p hq))
    refine ⟨{ name := relPath (root ++ batchRoot) (root ++ p),
              content := src.content, modTimeNs := src.modTimeNs } :: es, ?_⟩
    unfold archiveEntries at hes ⊢
    rw [List.mapM_cons, hsrc, hes]
    rfl

/-- One dirty batch uploads its archive and upserts its rows. -/
theorem backupBatchM_spec (hashFn : List Nat → Nat) (tree : FsTree) (db : DbState)
    (store : Store) (root pfx : Path) (b : BackupBatch)
    (hne : b.files ≠ [])
    (hdirty : ∀ f ∈ b.files, f.isDirty = true)
    (hfound : ∀ f ∈ b.files, ∃ src, findFile f.path tree = some src) :
    backupBatchM hashFn tree db store root pfx b false =
      some (dbUpsertAll db (batchRecords hashFn tree b),
            storePut store (pfx ++ batchKeySuffix b) (batchBlob tree root b),
            [pfx ++ batchKeySuffix b]) := by
  obtain ⟨broot, bsize, files⟩ := b
  rcases files with _ | ⟨f, _ | ⟨f2, rest⟩⟩
  · exact absurd rfl hne
  · have hdf : f.isDirty = true := hdirty f (by simp)
    obtain ⟨src, hsrc⟩ := hfound f (by simp)
    obtain ⟨es, hes⟩ := archiveEntries_isSome tree root (dirOf f.path) [f.path]
      (by intro p hp; rw [List.mem_singleton.mp hp]; exact ⟨src, hsrc⟩)
    simp [backupBatchM, batchRecords, batchKeySuffix, batchBlob, dbUpsertAll,
      hdf, hes, markFile_spec hashFn tree db f.path f.path src hsrc]
  · have hdf : f.isDirty = true := hdirty f (by simp)
    obtain ⟨es, hes⟩ := archiveEntries_isSome tree root broot
      ((f :: f2 :: rest).map (fun g => g.path))
      (by intro p hp
          obtain ⟨g, hg, rfl⟩ := List.mem_map.mp hp
          exact hfound g hg)
    have hmarks := markFiles_spec hashFn tree broot
      ((f :: f2 :: rest).map (fun g => g.path)) db
      (by intro p hp
          obtain ⟨g, hg, rfl⟩ := List.mem_map.mp hp
          exact hfound g hg)
    simp only [List.map_cons] at hes hmarks
    simp [backupBatchM, batchRecords, batchKeySuffix, batchBlob,
      hdf, hes, hmarks, List.map_map, Function.comp]
    rfl

/-- The full upload phase: each batch archived in order, rows
appended. -/
theorem backupBatchesM_spec (hashFn : List Nat → Nat) (tree : FsTree) (root pfx : Path) :
    ∀ (bs : List BackupBatch) (db : DbState) (store : Store),
    (∀ b ∈ bs, b.files ≠ [] ∧ (∀ f ∈ b.files, f.isDirty = true) ∧
      (∀ f ∈ b.files, ∃ src, findFile f.path tree = some src)) →
    backupBatchesM hashFn tree root pfx false db store bs =
      some (bs.foldl (fun d b => dbUpsertAll d (batchRecords hashFn tree b)) db,
            bs.foldl (fun st b => storePut st (pfx ++ batchKeySuffix b)
              (batchBlob tree root b)) store,
            bs.map (fun b => pfx ++ batchKeySuffix b))
  | [], db, store, _ => by simp [backupBatchesM]
  | b :: rest, db, store, hall => by
    have hb := hall b (List.mem_cons_self b rest)
    show (match backupBatchM hashFn tree db store root pfx b false with
          | none => none
          | some (db2, store2, ups) =>
            match backupBatchesM hashFn tree root pfx false db2 store2 rest with
            | none => none
            | some (db3, store3, ups2) => some (db3, store3, ups ++ ups2)) = _
    rw [backupBatchM_spec hashFn tree db store root pfx b hb.1 hb.2.1 hb.2.2]
    show (match backupBatchesM hashFn tree root pfx false
            (dbUpsertAll db (batchRecords hashFn tree b))
            (storePut store (pfx ++ batchKeySuffix b) (batchBlob tree root b)) rest with
          | none => none
          | some (db3, store3, ups2) =>
            some (db3, store3, [pfx ++ batchKeySuffix b] ++ ups2)) = _
    rw [backupBatchesM_spec hashFn tree root pfx rest _ _
      (fun b2 h2 => hall b2 (List.mem_cons_of_mem b h2))]
    rfl

/-- `plannedRecord` keeps its path argument. -/
theorem plannedRecord_path (hashFn : List Nat → Nat) (tree : FsTree) (bt p : Path) :
    (plannedRecord hashFn tree bt p).path = p := by
  unfold plannedRecord
  cases findFile p tree <;> rfl

/-- `plannedRecord` keeps its batch argument. -/
theorem plannedRecord_batch (hashFn : List Nat → Nat) (tree : FsTree) (bt p : Path) :
    (plannedRecord hashFn tree bt p).batch = bt := by
  unfold plannedRecord
  cases findFile p tree <;> rfl

/-- Upserting a concatenation is upserting in two phases. -/
theorem dbUpsertAll_append (db : DbState) (rs1 rs2 : List DbRecord) :
    dbUpsertAll db (rs1 ++ rs2) = dbUpsertAll (dbUpsertAll db rs1) rs2 := by
  simp [dbUpsertAll]

/-- The upload fold writes exactly the planned rows, batch after
batch. -/
theorem foldl_batchRecords (hashFn : List Nat → Nat) (tree : FsTree) :
    ∀ (bs : List BackupBatch) (db : DbState),
    bs.foldl (fun d b => dbUpsertAll d (batchRecords hashFn tree b)) db =
      dbUpsertAll db (planRecords hashFn tree bs)
  | [], _ => rfl
  | b :: rest, db => by
    show List.foldl _ (dbUpsertAll db (batchRecords hashFn tree b)) rest = _
    rw [foldl_batchRecords hashFn tree rest (dbUpsertAll db (batchRecords hashFn tree b))]
    rw [show planRecords hashFn tree (b :: rest) =
        batchRecords hashFn tree b ++ planRecords hashFn tree rest from rfl]
    rw [dbUpsertAll_append]

/-- Planned rows are keyed by the planned member paths. -/
theorem planRecords_paths (hashFn : List Nat → Nat) (tree : FsTree) :
    ∀ bs : List BackupBatch,
    (planRecords hashFn tree bs).map (fun r => r.path) = planPaths bs
  | [] => rfl
  | b :: rest => by
    show (batchRecords hashFn tree b ++ planRecords hashFn tree rest).map _ = _
    rw [List.map_append, planRecords_paths hashFn tree rest, batchRecords_paths]
    rfl

/-- With an empty manifest every file is dirty. -/
theorem doesFileNeedBackup_empty (hashFn : List Nat → Nat) (q : Path) (f : SrcFile) :
    (doesFileNeedBackup hashFn [] q f).1 = true := rfl

/-- Provenance of a planned row: a lone batch writes the sentinel row,
a multi-file batch writes the member under the batch root. -/
theorem mem_batchRecords (hashFn : List Nat → Nat) (tree : FsTree) (b : BackupBatch)
    (r : DbRecord) (hr : r ∈ batchRecords hashFn tree b) :
    (∃ f, b.files = [f] ∧ r = plannedRecord hashFn tree f.path f.path) ∨
    (1 < b.files.length ∧ ∃ f ∈ b.files, r = plannedRecord hashFn tree b.root f.path) := by
  obtain ⟨broot, bsize, files⟩ := b
  rcases files with _ | ⟨f, _ | ⟨f2, rest⟩⟩
  · simp [batchRecords] at hr
  · left
    refine ⟨f, rfl, ?_⟩
    simpa [batchRecords] using hr
  · right
    refine ⟨by simp, ?_⟩
    simp only [batchRecords] at hr
    simp only [List.map_cons, List.mem_cons, List.mem_map] at hr
    rcases hr with hr | hr | ⟨g, hg, hr⟩
    · exact ⟨f, by simp, hr⟩
    · exact ⟨f2, by simp, hr⟩
    · exact ⟨g, by simp [hg], hr.symm⟩

/-- The sentinel row of a lone batch is written. -/
theorem batchRecords_single_mem (hashFn : List Nat → Nat) (tree : FsTree)
    (b : BackupBatch) (f : BFile) (hbf : b.files = [f]) :
    plannedRecord hashFn tree f.path f.path ∈ batchRecords hashFn tree b := by
  unfold batchRecords
  rw [hbf]
  simp

/-- Each member row of a multi-file batch is written. -/
theorem batchRecords_multi_mem (hashFn : List Nat → Nat) (tree : FsTree)
    (b : BackupBatch) (f : BFile) (hlen : 1 < b.files.length) (hf : f ∈ b.files) :
    plannedRecord hashFn tree b.root f.path ∈ batchRecords hashFn tree b := by
  obtain ⟨broot, bsize, files⟩ := b
  rcases files with _ | ⟨f1, _ | ⟨f2, rest⟩⟩
  · simp at hf
  · simp at hlen
  · simp only [batchRecords]
    exact List.mem_map_of_mem _ hf

/-- Rows with equal paths coincide when the planned paths are
distinct. -/
theorem planRecords_inj (hashFn : List Nat → Nat) (tree : FsTree) (bs : List BackupBatch)
    (hnd : (planPaths bs).Nodup) (r1 r2 : DbRecord)
    (h1 : r1 ∈ planRecords hashFn tree bs) (h2 : r2 ∈ planRecords hashFn tree bs)
    (hp : r1.path = r2.path) : r1 = r2 := by
  have hmap : ((planRecords hashFn tree bs).map (fun r => r.path)).Nodup := by
    rw [planRecords_paths]
    exact hnd
  exact List.inj_on_of_nodup_map hmap h1 h2 hp

/-- All planned batches are uploadable from an empty manifest: they are
non-empty, all their members are dirty, and all their members exist in
the tree. -/
theorem plan_uploadable (hashFn : List Nat → Nat) (tree : FsTree) (root : Path) (T : Int)
    (hwf : treeWFb tree = true) :
    ∀ b ∈ getFilesToBackup hashFn [] root T [] tree,
    b.files ≠ [] ∧ (∀ f ∈ b.files, f.isDirty = true) ∧
      (∀ f ∈ b.files, ∃ src, findFile f.path tree = some src) := by
  intro b hb
  refine ⟨(plan_BatchOK hashFn [] root T tree [] b hb).1, ?_, ?_⟩
  · intro f hf
    obtain ⟨s, src, _, _, heq⟩ := plan_FileOK hashFn [] root T tree hwf [] b f hb hf
    rw [heq]
    exact doesFileNeedBackup_empty hashFn (root ++ ([] ++ s)) src
  · intro f hf
    obtain ⟨s, src, _, hfind, heq⟩ := plan_FileOK hashFn [] root T tree hwf [] b f hb hf
    refine ⟨src, ?_⟩
    rw [heq]
    exact hfind

/-- A first backup from an empty manifest and an empty store succeeds;
its final manifest is exactly the planned rows, its store holds one
archive per planned batch plus the manifest blob. -/
theorem backupFilesM_fresh (hashFn : List Nat → Nat) (tree : FsTree)
    (root prefixBase : Path) (name : String) (T : Int)
    (hwf : treeWFb tree = true) :
    backupFilesM hashFn tree [] [] root prefixBase name T false false =
      .ok (planRecords hashFn tree (getFilesToBackup hashFn [] root T [] tree),
        storePut
          ((getFilesToBackup hashFn [] root T [] tree).foldl
            (fun st b => storePut st ((prefixBase ++ [name]) ++ batchKeySuffix b)
              (batchBlob tree root b)) [])
          (prefixBase ++ [name ++ ".db.gz"])
          (Blob.dbGz (planRecords hashFn tree (getFilesToBackup hashFn [] root T [] tree))),
        (getFilesToBackup hashFn [] root T [] tree).map
          (fun b => (prefixBase ++ [name]) ++ batchKeySuffix b)) := by
  have hpre : backupFilesM hashFn tree [] [] root prefixBase name T false false =
      (match backupBatchesM hashFn tree root (prefixBase ++ [name]) false [] []
          (getFilesToBackup hashFn [] root T [] tree) with
       | none => .error "error backing up batch"
       | some (db2, store2, ups) =>
         .ok (db2, storePut store2 (prefixBase ++ [name ++ ".db.gz"]) (Blob.dbGz db2), ups)) :=
    rfl
  have hbb := backupBatchesM_spec hashFn tree root (prefixBase ++ [name])
    (getFilesToBackup hashFn [] root T [] tree) [] []
    (plan_uploadable hashFn tree root T hwf)
  have hfresh : dbUpsertAll [] (planRecords hashFn tree
      (getFilesToBackup hashFn [] root T [] tree)) =
      planRecords hashFn tree (getFilesToBackup hashFn [] root T [] tree) := by
    have h := dbUpsertAll_fresh
      (planRecords hashFn tree (getFilesToBackup hashFn [] root T [] tree)) []
      (by simp)
      (by rw [planRecords_paths]
          exact plan_paths_nodup hashFn [] root T tree [] hwf)
    simpa using h
  rw [hpre, hbb, foldl_batchRecords, hfresh]

/-- C7: after a successful backup from an empty manifest, a manifest
row's batch equals its path iff the planner emitted that file as a
lone single-file batch; every member of a multi-file batch is recorded
under the batch root, which differs from the member's path. -/
theorem C7_single_file_sentinel (hashFn : List Nat → Nat) (tree : FsTree)
    (root prefixBase : Path) (name : String) (T : Int)
    (dbF : DbState) (storeF : Store) (ups : List Path)
    (hwf : treeWFb tree = true)
    (hrun : backupFilesM hashFn tree [] [] root prefixBase name T false false =
      .ok (dbF, storeF, ups)) :
    (∀ r ∈ dbF, (r.batch = r.path ↔
      ∃ b ∈ getFilesToBackup hashFn [] root T [] tree,
        b.files.map (fun f => f.path) = [r.path])) ∧
    (∀ b ∈ getFilesToBackup hashFn [] root T [] tree, 1 < b.files.length →
      ∀ f ∈ b.files, b.root ≠ f.path ∧
        ∀ r ∈ dbF, r.path = f.path → r.batch = b.root) := by
  rw [backupFilesM_fresh hashFn tree root prefixBase name T hwf] at hrun
  simp only [Except.ok.injEq, Prod.mk.injEq] at hrun
  obtain ⟨hdb, -, -⟩ := hrun
  subst hdb
  have hnd : (planPaths (getFilesToBackup hashFn [] root T [] tree)).Nodup :=
    plan_paths_nodup hashFn [] root T tree [] hwf
  constructor
  · intro r hr
    constructor
    · intro hsent
      obtain ⟨b, hb, hrb⟩ := List.mem_flatMap.mp hr
      rcases mem_batchRecords hashFn tree b r hrb with ⟨f, hbf, rfl⟩ | ⟨hlen, f, hf, rfl⟩
      · refine ⟨b, hb, ?_⟩
        rw [hbf, plannedRecord_path]
        simp
      · exfalso
        have hbok := plan_BatchOK hashFn [] root T tree [] b hb
        rcases hbok.2.2 with h1 | hsub
        · omega
        · obtain ⟨s, hs, hps⟩ := hsub f hf
          rw [plannedRecord_batch, plannedRecord_path, hps] at hsent
          have hlen2 := congrArg List.length hsent
          rw [List.length_append] at hlen2
          exact hs (List.eq_nil_of_length_eq_zero (by omega))
    · rintro ⟨b, hb, hmap⟩
      obtain ⟨f, hbf, hfp⟩ : ∃ f, b.files = [f] ∧ f.path = r.path := by
        rcases hbfl : b.files with _ | ⟨f, _ | ⟨f2, rest⟩⟩
        · rw [hbfl] at hmap
          simp at hmap
        · rw [hbfl] at hmap
          simp at hmap
          exact ⟨f, rfl, hmap⟩
        · rw [hbfl] at hmap
          simp at hmap
      have hmem : plannedRecord hashFn tree f.path f.path ∈
          planRecords hashFn tree (getFilesToBackup hashFn [] root T [] tree) :=
        List.mem_flatMap.mpr ⟨b, hb, batchRecords_single_mem hashFn tree b f hbf⟩
      have hreq : r = plannedRecord hashFn tree f.path f.path :=
        planRecords_inj hashFn tree _ hnd r _ hr hmem (by rw [plannedRecord_path, hfp])
      rw [hreq, plannedRecord_batch, plannedRecord_path]
  · intro b hb hlen f hf
    have hbok := plan_BatchOK hashFn [] root T tree [] b hb
    have hne : b.root ≠ f.path := by
      rcases hbok.2.2 with h1 | hsub
      · omega
      · obtain ⟨s, hs, hps⟩ := hsub f hf
        rw [hps]
        intro hcontra
        have hlen2 := congrArg List.length hcontra
        rw [List.length_append] at hlen2
        exact hs (List.eq_nil_of_length_eq_zero (by omega))
    refine ⟨hne, ?_⟩
    intro r hr hrp
    have hmem : plannedRecord hashFn tree b.root f.path ∈
        planRecords hashFn tree (getFilesToBackup hashFn [] root T [] tree) :=
      List.mem_flatMap.mpr ⟨b, hb, batchRecords_multi_mem hashFn tree b f hlen hf⟩
    have hreq : r = plannedRecord hashFn tree b.root f.path :=
      planRecords_inj hashFn tree _ hnd r _ hr hmem (by rw [plannedRecord_path, hrp])
    rw [hreq, plannedRecord_batch]

/-- C7 witness: the sentinel equivalence holds concretely for the
fresh backup of `c7tree`, which plans one lone batch and one two-file
batch. -/
theorem C7_sentinel_witness :
    treeWFb c7tree = true ∧
    ((∀ r ∈ c7res.1, (r.batch = r.path ↔
        ∃ b ∈ getFilesToBackup hash0 [] [] 10 [] c7tree,
          b.files.map (fun f => f.path) = [r.path])) ∧
     (∀ b ∈ getFilesToBackup hash0 [] [] 10 [] c7tree, 1 < b.files.length →
        ∀ f ∈ b.files, b.root ≠ f.path ∧
          ∀ r ∈ c7res.1, r.path = f.path → r.batch = b.root)) :=
  ⟨by decide,
   C7_single_file_sentinel hash0 c7tree [] [] "n" 10 c7res.1 c7res.2.1 c7res.2.2
     (by decide) (by rfl)⟩

/-! ### Store and destination-filesystem lemmas -/

/-- Putting a fresh key appends the pair. -/
theorem storePut_fresh (s : Store) (k : Path) (v : Blob)
    (h : k ∉ s.map (fun e => e.1)) : storePut s k v = s ++ [(k, v)] := by
  unfold storePut
  rw [if_neg]
  intro hany
  obtain ⟨e, he, hek⟩ := List.any_eq_true.mp hany
  exact h (by
    rw [show k = e.1 from (beq_iff_eq.mp hek).symm]
    exact List.mem_map_of_mem _ he)

/-- Uploading batches with fresh, distinct keys appends them in
order. -/
theorem foldl_storePut_fresh (K : BackupBatch → Path) (V : BackupBatch → Blob) :
    ∀ (bs : List BackupBatch) (s : Store),
    (∀ b ∈ bs, K b ∉ s.map (fun e => e.1)) → (bs.map K).Nodup →
    bs.foldl (fun st b => storePut st (K b) (V b)) s = s ++ bs.map (fun b => (K b, V b))
  | [], s, _, _ => by simp
  | b :: rest, s, hfresh, hnd => by
    have hnd2 : K b ∉ rest.map K ∧ (rest.map K).Nodup := by
      rw [List.map_cons, List.nodup_cons] at hnd
      exact hnd
    show List.foldl _ (storePut s (K b) (V b)) rest = _
    rw [storePut_fresh s (K b) (V b) (hfresh b (List.mem_cons_self b rest))]
    rw [foldl_storePut_fresh K V rest (s ++ [(K b, V b)]) ?_ hnd2.2]
    · simp
    · intro x hx
      rw [List.map_append]
      intro hmem
      rcases List.mem_append.mp hmem with hmem | hmem
      · exact hfresh x (List.mem_cons_of_mem b hx) hmem
      · simp only [List.map_cons, List.map_nil, List.mem_singleton] at hmem
        exact hnd2.1 (hmem ▸ List.mem_map_of_mem _ hx)

/-- `storeGet` on a non-empty store, one step. -/
theorem storeGet_cons (e : Path × Blob) (rest : Store) (q : Path) :
    storeGet (e :: rest) q = if (e.1 == q) = true then some e.2 else storeGet rest q := by
  cases hb : (e.1 == q) <;> simp [storeGet, List.find?_cons, hb]

/-- Lookup skips a block of entries with other keys. -/
theorem storeGet_not_mem_append :
    ∀ (s1 s2 : Store) (k : Path), k ∉ s1.map (fun e => e.1) →
    storeGet (s1 ++ s2) k = storeGet s2 k
  | [], _, _, _ => rfl
  | e :: rest, s2, k, h => by
    simp only [List.map_cons, List.mem_cons, not_or] at h
    show storeGet (e :: (rest ++ s2)) k = _
    rw [storeGet_cons, if_neg (fun hb => h.1 (beq_iff_eq.mp hb).symm)]
    exact storeGet_not_mem_append rest s2 k h.2

/-- Lookup among the uploaded batch archives finds the batch's own
blob when the keys are distinct. -/
theorem storeGet_planList (K : BackupBatch → Path) (V : BackupBatch → Blob) :
    ∀ (bs : List BackupBatch) (b : BackupBatch), b ∈ bs → (bs.map K).Nodup →
    storeGet (bs.map (fun x => (K x, V x))) (K b) = some (V b)
  | [], b, hb, _ => absurd hb (List.not_mem_nil b)
  | x :: rest, b, hb, hnd => by
    rw [List.map_cons, List.nodup_cons] at hnd
    rcases List.mem_cons.mp hb with rfl | hb2
    · rw [List.map_cons, storeGet_cons, if_pos (by simp)]
    · rw [List.map_cons, storeGet_cons, if_neg ?_]
      · exact storeGet_planList K V rest b hb2 hnd.2
      · intro hbeq
        have hkx : K x = K b := beq_iff_eq.mp hbeq
        refine hnd.1 ?_
        rw [hkx]
        exact List.mem_map_of_mem K hb2

/-- `fsFind` on a non-empty destination, one step. -/
theorem fsFind_cons (e : Path × FsVal) (rest : DestFs) (q : Path) :
    fsFind (e :: rest) q = if (e.1 == q) = true then some e.2 else fsFind rest q := by
  cases hb : (e.1 == q) <;> simp [fsFind, List.find?_cons, hb]

/-- `fsFind` across a concatenation. -/
theorem fsFind_append :
    ∀ (fs1 fs2 : DestFs) (q : Path),
    fsFind (fs1 ++ fs2) q =
      match fsFind fs1 q with
      | some v => some v
      | none => fsFind fs2 q
  | [], _, _ => rfl
  | e :: rest, fs2, q => by
    show fsFind (e :: (rest ++ fs2)) q = _
    rw [fsFind_cons, fsFind_cons]
    by_cases h : (e.1 == q) = true
    · rw [if_pos h, if_pos h]
    · rw [if_neg h, if_neg h]
      exact fsFind_append rest fs2 q

/-- A key no entry carries is not found. -/
theorem fsFind_eq_none :
    ∀ (fs : DestFs) (q : Path), ¬ fs.any (fun e => e.1 == q) = true →
    fsFind fs q = none
  | [], _, _ => rfl
  | e :: rest, q, h => by
    rw [List.any_cons] at h
    rw [fsFind_cons, if_neg (fun hb => h (by rw [hb]; rfl))]
    exact fsFind_eq_none rest q (fun hb => h (by rw [hb]; simp))

/-- The in-place-update branch of `fsWrite`, at any query key. -/
theorem fsFind_write_map :
    ∀ (fs : DestFs) (p : Path) (v : FsVal) (q : Path),
    fsFind (fs.map (fun e => if e.1 == p then (p, v) else e)) q =
      if q = p then (if fs.any (fun e => e.1 == p) then some v else none)
      else fsFind fs q
  | [], p, v, q => by simp [fsFind]
  | e :: rest, p, v, q => by
    rw [List.map_cons, List.any_cons]
    by_cases hep : (e.1 == p) = true
    · rw [if_pos hep]
      rw [show (e.1 == p || rest.any fun e => e.1 == p) = true by rw [hep]; rfl]
      by_cases hqp : q = p
      · subst hqp
        rw [fsFind_cons, if_pos (by simp)]
        simp
      · have hne2 : ¬ (e.1 == q) = true := by
          intro hb
          exact hqp ((beq_iff_eq.mp hb).symm.trans (beq_iff_eq.mp hep))
        rw [fsFind_cons, if_neg (by simp [Ne.symm hqp]), if_neg hqp,
          fsFind_cons, if_neg hne2]
        rw [fsFind_write_map rest p v q, if_neg hqp]
    · rw [if_neg hep]
      rw [show (e.1 == p || rest.any fun e => e.1 == p) = (rest.any fun e => e.1 == p) by
        rw [Bool.eq_false_iff.mpr hep]; rfl]
      by_cases heq : (e.1 == q) = true
      · rw [fsFind_cons, if_pos heq, fsFind_cons, if_pos heq]
        rw [if_neg (fun hqp => hep (by rw [← hqp]; exact heq))]
      · rw [fsFind_cons, if_neg heq, fsFind_cons, if_neg heq]
        exact fsFind_write_map rest p v q

/-- `fsFind` after `fsWrite`: the written key reads back the value,
all other keys are untouched. -/
theorem fsFind_fsWrite (fs : DestFs) (p : Path) (v : FsVal) (q : Path) :
    fsFind (fsWrite fs p v) q = if q = p then some v else fsFind fs q := by
  unfold fsWrite
  by_cases hany : fs.any (fun e => e.1 == p) = true
  · rw [if_pos hany, fsFind_write_map, if_pos hany]
  · rw [if_neg hany, fsFind_append]
    by_cases hqp : q = p
    · subst hqp
      rw [fsFind_eq_none fs q hany, if_pos rfl]
      rw [fsFind_cons, if_pos (by simp)]
    · rw [if_neg hqp]
      have hne : ¬ ((p, v).1 == q) = true := by
        intro hb
        exact hqp (beq_iff_eq.mp hb).symm
      cases hf : fsFind fs q
      · rw [fsFind_cons, if_neg hne]
        rfl
      · rfl

/-- `fsFind` after `fsRemove`: the removed key is gone, all other keys
are untouched. -/
theorem fsFind_fsRemove :
    ∀ (fs : DestFs) (p q : Path),
    fsFind (fsRemove fs p) q = if q = p then none else fsFind fs q
  | [], p, q => by
    unfold fsRemove
    by_cases hqp : q = p <;> simp [hqp, fsFind]
  | e :: rest, p, q => by
    show fsFind (List.filter (fun e => e.1 != p) (e :: rest)) q = _
    rw [List.filter_cons]
    by_cases hep : (e.1 != p) = true
    · rw [if_pos hep, fsFind_cons]
      by_cases heq : (e.1 == q) = true
      · rw [if_pos heq]
        rw [if_neg, fsFind_cons, if_pos heq]
        intro hqp
        subst hqp
        exact bne_iff_ne.mp hep (beq_iff_eq.mp heq)
      · rw [if_neg heq]
        show fsFind (fsRemove rest p) q = _
        rw [fsFind_fsRemove rest p q]
        by_cases hqp : q = p
        · rw [if_pos hqp, if_pos hqp]
        · rw [if_neg hqp, if_neg hqp, fsFind_cons, if_neg heq]
    · rw [if_neg hep]
      show fsFind (fsRemove rest p) q = _
      rw [fsFind_fsRemove rest p q]
      have hepeq : e.1 = p := by
        by_contra hne
        exact hep (bne_iff_ne.mpr hne)
      by_cases hqp : q = p
      · rw [if_pos hqp, if_pos hqp]
      · have hne3 : ¬ (e.1 == q) = true := by
          intro hb
          exact hqp ((beq_iff_eq.mp hb).symm.trans hepeq)
        rw [if_neg hqp, if_neg hqp, fsFind_cons, if_neg hne3]

/-- Untarring entries none of which target `q` leaves `q` unchanged. -/
theorem fsFind_unTarInto_notMem :
    ∀ (es : List TarEntry) (fs : DestFs) (dir q : Path),
    (∀ e ∈ es, dir ++ e.name ≠ q) →
    fsFind (unTarInto fs dir es) q = fsFind fs q
  | [], _, _, _, _ => rfl
  | e :: rest, fs, dir, q, h => by
    show fsFind (unTarInto
      (fsWrite fs (dir ++ e.name) (FsVal.plain e.content e.modTimeNs)) dir rest) q = _
    rw [fsFind_unTarInto_notMem rest _ dir q (fun x hx => h x (List.mem_cons_of_mem e hx))]
    rw [fsFind_fsWrite, if_neg (fun hq => h e (List.mem_cons_self e rest) hq.symm)]

/-- Untarring entries with a unique entry targeting `q` sets `q` to
that entry's contents and mod-time. -/
theorem fsFind_unTarInto_mem :
    ∀ (es : List TarEntry) (fs : DestFs) (dir q : Path) (e : TarEntry),
    e ∈ es → dir ++ e.name = q → (∀ e2 ∈ es, dir ++ e2.name = q → e2 = e) →
    fsFind (unTarInto fs dir es) q = some (FsVal.plain e.content e.modTimeNs)
  | [], _, _, _, e, he, _, _ => absurd he (List.not_mem_nil e)
  | e1 :: rest, fs, dir, q, e, he, heq, huniq => by
    show fsFind (unTarInto
      (fsWrite fs (dir ++ e1.name) (FsVal.plain e1.content e1.modTimeNs)) dir rest) q = _
    by_cases hr : ∃ e2 ∈ rest, dir ++ e2.name = q
    · obtain ⟨e2, he2, heq2⟩ := hr
      have he2e : e2 = e := huniq e2 (List.mem_cons_of_mem e1 he2) heq2
      exact fsFind_unTarInto_mem rest _ dir q e (he2e ▸ he2) heq
        (fun e3 h3 hq3 => huniq e3 (List.mem_cons_of_mem e1 h3) hq3)
    · have hrn : ∀ e2 ∈ rest, dir ++ e2.name ≠ q := by
        intro e2 h2 hq2
        exact hr ⟨e2, h2, hq2⟩
      have he1 : e1 = e := by
        rcases List.mem_cons.mp he with rfl | hmem
        · rfl
        · exact absurd heq (hrn e hmem)
      rw [fsFind_unTarInto_notMem rest _ dir q hrn]
      rw [fsFind_fsWrite, if_pos (by rw [he1]; exact heq.symm), he1]

/-! ### Path computation lemmas -/

/-- `filepath.Rel` strips a common prefix entirely. -/
theorem relPath_strip (c s : Path) : relPath c (c ++ s) = s := by
  have h := relPath_append c [] s
  rw [List.append_nil] at h
  rw [h]
  cases s <;> rfl

/-- `withSuffix` rewrites only the final component. -/
theorem withSuffix_concat (sfx : String) : ∀ (a : List String) (n : String),
    withSuffix sfx (a ++ [n]) = a ++ [n ++ sfx]
  | [], _ => rfl
  | [_], _ => rfl
  | m :: m2 :: a2, n => by
    show withSuffix sfx (m :: (m2 :: a2 ++ [n])) = m :: (m2 :: a2 ++ [n ++ sfx])
    rw [show withSuffix sfx (m :: (m2 :: a2 ++ [n])) =
        m :: withSuffix sfx (m2 :: a2 ++ [n]) from rfl]
    rw [withSuffix_concat sfx (m2 :: a2) n]

/-- `withSuffix` never yields the empty path. -/
theorem withSuffix_ne_nil (sfx : String) : ∀ p : Path, withSuffix sfx p ≠ []
  | [] => by simp [withSuffix]
  | [n] => by simp [withSuffix]
  | n :: m :: rest => by simp [withSuffix]

/-- A batch's key suffix is never empty. -/
theorem batchKeySuffix_ne_nil (b : BackupBatch) : batchKeySuffix b ≠ [] := by
  obtain ⟨broot, bsize, files⟩ := b
  rcases files with _ | ⟨f, _ | ⟨f2, rest⟩⟩
  · simp [batchKeySuffix]
  · exact withSuffix_ne_nil ".tar.gz" f.path
  · simp [batchKeySuffix]

/-- The archive entries spelled out per member. -/
theorem archiveEntries_eq_map (tree : FsTree) (root broot : Path) :
    ∀ ps : List Path, (∀ p ∈ ps, ∃ src, findFile p tree = some src) →
    archiveEntries tree root broot ps = some (ps.map (fun p =>
      { name := relPath (root ++ broot) (root ++ p),
        content := (findFileD p tree).content,
        modTimeNs := (findFileD p tree).modTimeNs }))
  | [], _ => rfl
  | p :: rest, hall => by
    obtain ⟨src, hsrc⟩ := hall p (List.mem_cons_self p rest)
    have hrest := archiveEntries_eq_map tree root broot rest
      (fun q hq => hall q (List.mem_cons_of_mem p hq))
    unfold archiveEntries at hrest ⊢
    rw [List.mapM_cons, hsrc, hrest]
    simp [findFileD, hsrc]

/-- The batch blob is always a TAR archive of the batch entries. -/
theorem batchBlob_eq (tree : FsTree) (root : Path) (b : BackupBatch) :
    batchBlob tree root b = Blob.tarGz (batchEntries tree root b) := by
  unfold batchBlob batchEntries batchRootOf
  cases archiveEntries tree root
      (match b.files with | [f] => dirOf f.path | _ => b.root)
      (b.files.map (fun f => f.path)) <;> rfl

/-- The manifest object's name never equals the backup name itself. -/
theorem name_ne_dbgz (name : String) : name ++ ".db.gz" ≠ name := by
  intro h
  have hlen := congrArg String.length h
  rw [String.length_append] at hlen
  have h6 : ".db.gz".length = 6 := rfl
  rw [h6] at hlen
  omega

/-- With distinct file names, `find?` returns the listed file. -/
theorem find_name_unique : ∀ (files : List SrcFile), (files.map SrcFile.name).Nodup →
    ∀ f ∈ files, files.find? (fun g => g.name == f.name) = some f
  | [], _, f, hf => absurd hf (List.not_mem_nil f)
  | g :: rest, hnd, f, hf => by
    rw [List.map_cons, List.nodup_cons] at hnd
    rcases List.mem_cons.mp hf with rfl | hf2
    · simp [List.find?_cons]
    · have hne : (g.name == f.name) = false := by
        rw [Bool.eq_false_iff]
        intro hb
        refine hnd.1 ?_
        rw [beq_iff_eq.mp hb]
        exact List.mem_map_of_mem SrcFile.name hf2
      simp only [List.find?_cons, hne]
      exact find_name_unique rest hnd.2 f hf2

/-- Listed file paths are never empty. -/
theorem treeFiles_ne_nil :
    ∀ t : FsTree, ∀ pf ∈ treeFiles t, pf.1 ≠ [] := by
  refine fsTreeInd
    (fun t => ∀ pf ∈ treeFiles t, pf.1 ≠ [])
    (fun ds => ∀ pf ∈ treeFilesDirs ds, pf.1 ≠ []) ?_ ?_ ?_
  · intro fs ds hQ pf hpf
    rcases List.mem_append.mp hpf with h | h
    · obtain ⟨f, _, rfl⟩ := List.mem_map.mp h
      simp
    · exact hQ pf h
  · intro pf hpf
    simp [treeFilesDirs] at hpf
  · intro n t rest hP hQ pf hpf
    rcases List.mem_append.mp hpf with h | h
    · obtain ⟨q, _, rfl⟩ := List.mem_map.mp h
      simp
    · exact hQ pf h

/-- In a well-formed tree, every listed file is found at its listed
path with its listed contents. -/
theorem treeFiles_findFile :
    ∀ t : FsTree, treeWFb t = true → ∀ pf ∈ treeFiles t, findFile pf.1 t = some pf.2 := by
  refine fsTreeInd
    (fun t => treeWFb t = true → ∀ pf ∈ treeFiles t, findFile pf.1 t = some pf.2)
    (fun ds => treeWFbList ds = true → ∀ pf ∈ treeFilesDirs ds,
      ∃ n sub p2, pf.1 = n :: p2 ∧ (n, sub) ∈ ds.toList ∧ (p2, pf.2) ∈ treeFiles sub ∧
        findFile p2 sub = some pf.2) ?_ ?_ ?_
  · intro fs ds hQ hwf pf hpf
    rw [show treeWFb (FsTree.node fs ds) =
        (decide ((fs.map SrcFile.name ++ dirNames ds).Nodup) && treeWFbList ds) from rfl,
      Bool.and_eq_true, decide_eq_true_eq] at hwf
    rcases List.mem_append.mp hpf with h | h
    · obtain ⟨f, hfmem, rfl⟩ := List.mem_map.mp h
      show findFile [f.name] (FsTree.node fs ds) = some f
      show fs.find? (fun g => g.name == f.name) = some f
      exact find_name_unique fs (List.Nodup.of_append_left hwf.1) f hfmem
    · obtain ⟨n, sub, p2, hp1, hmem, hmem2, hfind⟩ := hQ hwf.2 pf h
      rw [hp1]
      rw [findFile_cons n p2 (treeFiles_ne_nil sub (p2, pf.2) hmem2) fs ds sub
        (findDir_unique ds (List.Nodup.of_append_right hwf.1) n sub hmem)]
      exact hfind
  · intro _ pf hpf
    simp [treeFilesDirs] at hpf
  · intro n t rest hP hQ hwf pf hpf
    rw [show treeWFbList (FsDirList.cons n t rest) = (treeWFb t && treeWFbList rest) from rfl,
      Bool.and_eq_true] at hwf
    rcases List.mem_append.mp hpf with h | h
    · obtain ⟨q, hq, rfl⟩ := List.mem_map.mp h
      exact ⟨n, t, q.1, rfl, by simp [FsDirList.toList], hq, hP hwf.1 q hq⟩
    · obtain ⟨m, sub, p2, hp1, hmem, hmem2, hfind⟩ := hQ hwf.2 pf h
      exact ⟨m, sub, p2, hp1, by simp [FsDirList.toList, hmem], hmem2, hfind⟩

/-- Where each archive entry of a planned batch is extracted to: the
member's own destination path. -/
theorem batch_entry_target (dest root : Path) (b : BackupBatch) (hbok : BatchOK [] b)
    (f : BFile) (hf : f ∈ b.files) :
    dirOf (dest ++ batchKeySuffix b) ++ relPath (root ++ batchRootOf b) (root ++ f.path)
      = dest ++ f.path := by
  obtain ⟨broot, bsize, files⟩ := b
  rcases files with _ | ⟨f1, _ | ⟨f2, rest⟩⟩
  · exact absurd hf (List.not_mem_nil f)
  · obtain rfl : f = f1 := List.mem_singleton.mp hf
    obtain ⟨s, hs, hps⟩ := hbok.2.1 f (List.mem_singleton.mpr rfl)
    have hpne : f.path ≠ [] := by
      rw [hps]
      simpa using hs
    obtain ⟨a, n, han⟩ : ∃ a n, f.path = a ++ [n] :=
      ⟨f.path.dropLast, f.path.getLast hpne, (List.dropLast_append_getLast hpne).symm⟩
    show dirOf (dest ++ withSuffix ".tar.gz" f.path) ++
        relPath (root ++ dirOf f.path) (root ++ f.path) = dest ++ f.path
    rw [han, withSuffix_concat]
    unfold dirOf
    rw [← List.append_assoc dest a [n ++ ".tar.gz"], List.dropLast_concat,
      List.dropLast_concat, ← List.append_assoc root a [n], relPath_strip,
      ← List.append_assoc dest a [n]]
  · rcases hbok.2.2 with h1 | hsub
    · exact absurd h1 (by simp)
    obtain ⟨s, hs, hps⟩ := hsub f hf
    show dirOf (dest ++ (broot ++ ["_files.tar.gz"])) ++
        relPath (root ++ broot) (root ++ f.path) = dest ++ f.path
    rw [hps, ← List.append_assoc dest broot ["_files.tar.gz"]]
    unfold dirOf
    rw [List.dropLast_concat, ← List.append_assoc root broot s, relPath_strip,
      ← List.append_assoc dest broot s]

/-- The batch entries, one per member path. -/
theorem batchEntries_eq (tree : FsTree) (root : Path) (b : BackupBatch)
    (hfound : ∀ f ∈ b.files, ∃ src, findFile f.path tree = some src) :
    batchEntries tree root b = (b.files.map (fun f => f.path)).map (fun p =>
      { name := relPath (root ++ batchRootOf b) (root ++ p),
        content := (findFileD p tree).content,
        modTimeNs := (findFileD p tree).modTimeNs }) := by
  unfold batchEntries
  rw [archiveEntries_eq_map tree root (batchRootOf b) (b.files.map (fun f => f.path)) ?_]
  · intro p hp
    obtain ⟨f, hf, rfl⟩ := List.mem_map.mp hp
    exact hfound f hf

/-- `storeGet` across a concatenation. -/
theorem storeGet_append :
    ∀ (s1 s2 : Store) (q : Path),
    storeGet (s1 ++ s2) q =
      match storeGet s1 q with
      | some v => some v
      | none => storeGet s2 q
  | [], _, _ => rfl
  | e :: rest, s2, q => by
    show storeGet (e :: (rest ++ s2)) q = _
    rw [storeGet_cons, storeGet_cons]
    by_cases h : (e.1 == q) = true
    · rw [if_pos h, if_pos h]
    · rw [if_neg h, if_neg h]
      exact storeGet_append rest s2 q

/-- One object-loop iteration on a batch archive: both sides of the
basename test extract the archive next to the download and delete the
download. -/
theorem recoverObject_batch (tree : FsTree) (store : Store) (fs : DestFs)
    (dest root pfx : Path) (b : BackupBatch)
    (hget : storeGet store (pfx ++ batchKeySuffix b) = some (batchBlob tree root b)) :
    recoverObject store fs dest pfx (pfx ++ batchKeySuffix b) =
      .ok (recoverBatchStep tree root dest fs b) := by
  have hun : unTarBlob (batchBlob tree root b) = some (batchEntries tree root b) := by
    rw [batchBlob_eq]
    rfl
  simp only [recoverObject, recoverBatchStep, List.drop_left, hget, hun, ite_self]

/-- The object loop over the uploaded batch archives succeeds and
folds the per-batch step. -/
theorem recoverObjects_batches (tree : FsTree) (store : Store) (dest root pfx : Path) :
    ∀ (bs : List BackupBatch) (fs : DestFs),
    (∀ b ∈ bs, storeGet store (pfx ++ batchKeySuffix b) = some (batchBlob tree root b)) →
    recoverObjects store dest pfx fs (bs.map (fun b => pfx ++ batchKeySuffix b)) =
      .ok (bs.foldl (recoverBatchStep tree root dest) fs)
  | [], _, _ => rfl
  | b :: rest, fs, hall => by
    show (match recoverObject store fs dest pfx (pfx ++ batchKeySuffix b) with
          | Except.error e => Except.error e
          | Except.ok fs2 => recoverObjects store dest pfx fs2
              (rest.map (fun b => pfx ++ batchKeySuffix b))) = _
    rw [recoverObject_batch tree store fs dest root pfx b (hall b (List.mem_cons_self b rest))]
    show recoverObjects store dest pfx (recoverBatchStep tree root dest fs b)
        (rest.map (fun b => pfx ++ batchKeySuffix b)) = _
    rw [recoverObjects_batches tree store dest root pfx rest _
      (fun x hx => hall x (List.mem_cons_of_mem b hx))]
    rfl

/-- A batch whose key and members avoid `p0` leaves `dest ++ p0`
unchanged. -/
theorem recoverBatchStep_find_other (tree : FsTree) (root dest : Path) (acc : DestFs)
    (b : BackupBatch) (p0 : Path) (hbok : BatchOK [] b)
    (hfound : ∀ f ∈ b.files, ∃ src, findFile f.path tree = some src)
    (hkey : batchKeySuffix b ≠ p0)
    (hmem : ∀ f ∈ b.files, f.path ≠ p0) :
    fsFind (recoverBatchStep tree root dest acc b) (dest ++ p0) = fsFind acc (dest ++ p0) := by
  have hkq : dest ++ p0 ≠ dest ++ batchKeySuffix b := by
    intro h
    exact hkey ((List.append_right_injective dest h).symm)
  unfold recoverBatchStep
  rw [fsFind_fsRemove, if_neg hkq]
  rw [fsFind_unTarInto_notMem _ _ _ _ ?_]
  · rw [fsFind_fsWrite, if_neg hkq]
  · intro e he
    rw [batchEntries_eq tree root b hfound] at he
    obtain ⟨p, hp, rfl⟩ := List.mem_map.mp he
    obtain ⟨f, hf, rfl⟩ := List.mem_map.mp hp
    show dirOf (dest ++ batchKeySuffix b) ++
      relPath (root ++ batchRootOf b) (root ++ f.path) ≠ dest ++ p0
    rw [batch_entry_target dest root b hbok f hf]
    intro h
    exact hmem f hf (List.append_right_injective dest h)

/-- A batch containing `p0` sets `dest ++ p0` to the member's bytes and
mod-time. -/
theorem recoverBatchStep_find_self (tree : FsTree) (root dest : Path) (acc : DestFs)
    (b : BackupBatch) (p0 : Path) (src : SrcFile) (hbok : BatchOK [] b)
    (hfound : ∀ f ∈ b.files, ∃ src, findFile f.path tree = some src)
    (hkey : batchKeySuffix b ≠ p0)
    (f0 : BFile) (hf0 : f0 ∈ b.files) (hp0 : f0.path = p0)
    (hsrc : findFile p0 tree = some src) :
    fsFind (recoverBatchStep tree root dest acc b) (dest ++ p0) =
      some (FsVal.plain src.content src.modTimeNs) := by
  have hkq : dest ++ p0 ≠ dest ++ batchKeySuffix b := by
    intro h
    exact hkey ((List.append_right_injective dest h).symm)
  have hD : findFileD p0 tree = src := by
    unfold findFileD
    rw [hsrc]
    rfl
  unfold recoverBatchStep
  rw [fsFind_fsRemove, if_neg hkq]
  rw [batchEntries_eq tree root b hfound]
  refine (fsFind_unTarInto_mem _ _ _ _
    { name := relPath (root ++ batchRootOf b) (root ++ p0),
      content := (findFileD p0 tree).content,
      modTimeNs := (findFileD p0 tree).modTimeNs } ?_ ?_ ?_).trans ?_
  · exact List.mem_map.mpr ⟨p0, List.mem_map.mpr ⟨f0, hf0, hp0⟩, rfl⟩
  · have h := batch_entry_target dest root b hbok f0 hf0
    rw [hp0] at h
    exact h
  · intro e2 h2 hq2
    obtain ⟨p, hp, rfl⟩ := List.mem_map.mp h2
    obtain ⟨f, hf, rfl⟩ := List.mem_map.mp hp
    rw [batch_entry_target dest root b hbok f hf] at hq2
    rw [List.append_right_injective dest hq2]
  · rw [hD]

/-- Batches that avoid `p0` altogether leave `dest ++ p0` unchanged. -/
theorem recover_foldl_other (tree : FsTree) (root dest : Path) :
    ∀ (bs : List BackupBatch) (acc : DestFs) (p0 : Path),
    (∀ b ∈ bs, BatchOK [] b) →
    (∀ b ∈ bs, ∀ f ∈ b.files, ∃ src, findFile f.path tree = some src) →
    (∀ b ∈ bs, batchKeySuffix b ≠ p0) →
    (∀ b ∈ bs, ∀ f ∈ b.files, f.path ≠ p0) →
    fsFind (bs.foldl (recoverBatchStep tree root dest) acc) (dest ++ p0) =
      fsFind acc (dest ++ p0)
  | [], _, _, _, _, _, _ => rfl
  | b :: rest, acc, p0, hok, hfd, hk, hm => by
    show fsFind (rest.foldl (recoverBatchStep tree root dest)
      (recoverBatchStep tree root dest acc b)) (dest ++ p0) = _
    rw [recover_foldl_other tree root dest rest _ p0
      (fun x hx => hok x (List.mem_cons_of_mem b hx))
      (fun x hx => hfd x (List.mem_cons_of_mem b hx))
      (fun x hx => hk x (List.mem_cons_of_mem b hx))
      (fun x hx => hm x (List.mem_cons_of_mem b hx))]
    exact recoverBatchStep_find_other tree root dest acc b p0
      (hok b (List.mem_cons_self b rest)) (hfd b (List.mem_cons_self b rest))
      (hk b (List.mem_cons_self b rest)) (hm b (List.mem_cons_self b rest))

/-- The object loop recovers `p0`'s bytes and mod-time when some batch
carries it and the planned paths are distinct. -/
theorem recover_foldl_self (tree : FsTree) (root dest : Path) :
    ∀ (bs : List BackupBatch) (acc : DestFs) (p0 : Path) (src : SrcFile),
    (∀ b ∈ bs, BatchOK [] b) →
    (∀ b ∈ bs, ∀ f ∈ b.files, ∃ src, findFile f.path tree = some src) →
    (∀ b ∈ bs, batchKeySuffix b ≠ p0) →
    (planPaths bs).Nodup →
    findFile p0 tree = some src →
    (∃ b ∈ bs, ∃ f ∈ b.files, f.path = p0) →
    fsFind (bs.foldl (recoverBatchStep tree root dest) acc) (dest ++ p0) =
      some (FsVal.plain src.content src.modTimeNs)
  | [], _, _, _, _, _, _, _, _, hex => by simp at hex
  | b :: rest, acc, p0, src, hok, hfd, hk, hnd, hsrc, hex => by
    have hndparts : (b.files.map (fun f => f.path)).Nodup ∧ (planPaths rest).Nodup ∧
        List.Disjoint (b.files.map (fun f => f.path)) (planPaths rest) := by
      rw [show planPaths (b :: rest) =
        b.files.map (fun f => f.path) ++ planPaths rest from rfl, List.nodup_append] at hnd
      exact hnd
    show fsFind (rest.foldl (recoverBatchStep tree root dest)
      (recoverBatchStep tree root dest acc b)) (dest ++ p0) = _
    by_cases hcur : ∃ f ∈ b.files, f.path = p0
    · obtain ⟨f0, hf0, hfp0⟩ := hcur
      rw [recover_foldl_other tree root dest rest _ p0
        (fun x hx => hok x (List.mem_cons_of_mem b hx))
        (fun x hx => hfd x (List.mem_cons_of_mem b hx))
        (fun x hx => hk x (List.mem_cons_of_mem b hx)) ?_]
      · exact recoverBatchStep_find_self tree root dest acc b p0 src
          (hok b (List.mem_cons_self b rest)) (hfd b (List.mem_cons_self b rest))
          (hk b (List.mem_cons_self b rest)) f0 hf0 hfp0 hsrc
      · intro b2 hb2 f2 hf2 hfp2
        refine hndparts.2.2 (List.mem_map.mpr ⟨f0, hf0, hfp0⟩) ?_
        rw [← hfp2]
        exact List.mem_flatMap.mpr ⟨b2, hb2, List.mem_map.mpr ⟨f2, hf2, rfl⟩⟩
    · refine recover_foldl_self tree root dest rest _ p0 src
        (fun x hx => hok x (List.mem_cons_of_mem b hx))
        (fun x hx => hfd x (List.mem_cons_of_mem b hx))
        (fun x hx => hk x (List.mem_cons_of_mem b hx))
        hndparts.2.1 hsrc ?_
      obtain ⟨b2, hb2, f2, hf2, hf2p⟩ := hex
      rcases List.mem_cons.mp hb2 with rfl | hb2r
      · exact absurd ⟨f2, hf2, hf2p⟩ hcur
      · exact ⟨b2, hb2r, f2, hf2, hf2p⟩

/-- Prefixing distinct keys keeps them distinct. -/
theorem prefixed_keys_nodup (pfx : Path) (bs : List BackupBatch)
    (h : (bs.map batchKeySuffix).Nodup) :
    (bs.map (fun b => pfx ++ batchKeySuffix b)).Nodup := by
  have hinj : Function.Injective (fun p : Path => pfx ++ p) :=
    List.append_right_injective pfx
  have h2 := h.map hinj
  rw [List.map_map] at h2
  exact h2

/-- The fresh upload fold lays the archives out as a list. -/
theorem planStore_eq (tree : FsTree) (root pfx : Path) (bs : List BackupBatch)
    (hnd : (bs.map (fun b => pfx ++ batchKeySuffix b)).Nodup) :
    bs.foldl (fun st b => storePut st (pfx ++ batchKeySuffix b) (batchBlob tree root b)) [] =
      planStoreList tree root pfx bs := by
  have h := foldl_storePut_fresh (fun b => pfx ++ batchKeySuffix b)
    (fun b => batchBlob tree root b) bs [] (by intro b hb; simp) hnd
  simpa using h

/-- The manifest object's key is no batch-archive key. -/
theorem dbKey_not_plan_key (prefixBase : Path) (name : String) (b : BackupBatch) :
    prefixBase ++ [name ++ ".db.gz"] ≠ (prefixBase ++ [name]) ++ batchKeySuffix b := by
  intro h
  have hlen := congrArg List.length h
  rw [List.length_append, List.length_append, List.length_append] at hlen
  have hpos := List.length_pos.mpr (batchKeySuffix_ne_nil b)
  simp only [List.length_cons, List.length_nil] at hlen
  omega

/-- The manifest object is not listed under the backup prefix. -/
theorem pfx_not_prefix_dbKey (prefixBase : Path) (name : String) :
    (prefixBase ++ [name]).isPrefixOf (prefixBase ++ [name ++ ".db.gz"]) = false := by
  rw [Bool.eq_false_iff]
  intro h
  rw [List.isPrefixOf_iff_prefix] at h
  obtain ⟨t, ht⟩ := h
  rw [List.append_assoc] at ht
  have h2 : [name] ++ t = [name ++ ".db.gz"] := List.append_cancel_left ht
  simp at h2
  exact name_ne_dbgz name h2.1.symm

/-- Each batch-archive key is listed under the backup prefix. -/
theorem plan_key_under (prefixBase : Path) (name : String) (b : BackupBatch) :
    ((prefixBase ++ [name]).isPrefixOf ((prefixBase ++ [name]) ++ batchKeySuffix b) &&
      ((prefixBase ++ [name]) ++ batchKeySuffix b != prefixBase ++ [name])) = true := by
  rw [Bool.and_eq_true]
  refine ⟨?_, ?_⟩
  · rw [List.isPrefixOf_iff_prefix]
    exact List.prefix_append _ _
  · rw [bne_iff_ne]
    intro h
    have hlen := congrArg List.length h
    rw [List.length_append] at hlen
    have hpos := List.length_pos.mpr (batchKeySuffix_ne_nil b)
    omega

/-- C1: after a fresh backup and a recovery into a clean destination,
every source file whose path collides with no batch-archive key is
present at its relative path with identical bytes and its exact
(hence second-truncated) modification time.  The collision hypotheses
are necessary: see the companion counterexample. -/
theorem C1_round_trip_no_collision (hashFn : List Nat → Nat) (tree : FsTree)
    (root prefixBase dest : Path) (name : String) (T : Int)
    (dbF : DbState) (storeF : Store) (ups : List Path)
    (hwf : treeWFb tree = true)
    (hkeys : ((getFilesToBackup hashFn [] root T [] tree).map batchKeySuffix).Nodup)
    (hnoclash : ∀ b ∈ getFilesToBackup hashFn [] root T [] tree,
      ∀ pf ∈ treeFiles tree, batchKeySuffix b ≠ pf.1)
    (hrun : backupFilesM hashFn tree [] [] root prefixBase name T false false =
      .ok (dbF, storeF, ups)) :
    ∃ fs, recoverFilesM storeF false [] prefixBase name dest false = .ok (fs, dbF) ∧
      ∀ pf ∈ treeFiles tree, pf.2.name ≠ "backup.db" →
        fsFind fs (dest ++ pf.1) = some (FsVal.plain pf.2.content pf.2.modTimeNs) := by
  rw [backupFilesM_fresh hashFn tree root prefixBase name T hwf] at hrun
  simp only [Except.ok.injEq, Prod.mk.injEq] at hrun
  obtain ⟨hdb, hst, -⟩ := hrun
  subst hdb
  have hndK := prefixed_keys_nodup (prefixBase ++ [name])
    (getFilesToBackup hashFn [] root T [] tree) hkeys
  rw [planStore_eq tree root (prefixBase ++ [name])
    (getFilesToBackup hashFn [] root T [] tree) hndK] at hst
  have hdbfresh : prefixBase ++ [name ++ ".db.gz"] ∉
      (planStoreList tree root (prefixBase ++ [name])
        (getFilesToBackup hashFn [] root T [] tree)).map (fun e => e.1) := by
    intro hm
    unfold planStoreList at hm
    rw [List.map_map] at hm
    obtain ⟨b, hb, hkeq⟩ := List.mem_map.mp hm
    exact dbKey_not_plan_key prefixBase name b hkeq.symm
  have hstoreF : storeF = planStoreList tree root (prefixBase ++ [name])
      (getFilesToBackup hashFn [] root T [] tree) ++
      [(prefixBase ++ [name ++ ".db.gz"],
        Blob.dbGz (planRecords hashFn tree (getFilesToBackup hashFn [] root T [] tree)))] := by
    rw [← hst]
    exact storePut_fresh _ _ _ hdbfresh
  subst hstoreF
  have hremote : remoteDbOf
      (planStoreList tree root (prefixBase ++ [name])
        (getFilesToBackup hashFn [] root T [] tree) ++
       [(prefixBase ++ [name ++ ".db.gz"],
         Blob.dbGz (planRecords hashFn tree (getFilesToBackup hashFn [] root T [] tree)))])
      (prefixBase ++ [name ++ ".db.gz"]) =
      some (planRecords hashFn tree (getFilesToBackup hashFn [] root T [] tree)) := by
    unfold remoteDbOf
    rw [storeGet_not_mem_append _ _ _ hdbfresh, storeGet_cons, if_pos (by simp)]
  have hkeysEq : storeKeysUnder
      (planStoreList tree root (prefixBase ++ [name])
        (getFilesToBackup hashFn [] root T [] tree) ++
       [(prefixBase ++ [name ++ ".db.gz"],
         Blob.dbGz (planRecords hashFn tree (getFilesToBackup hashFn [] root T [] tree)))])
      (prefixBase ++ [name]) =
      (getFilesToBackup hashFn [] root T [] tree).map
        (fun b => (prefixBase ++ [name]) ++ batchKeySuffix b) := by
    unfold storeKeysUnder planStoreList
    rw [List.map_append, List.map_map, List.filter_append]
    have hone : (((prefixBase ++ [name ++ ".db.gz"],
        Blob.dbGz (planRecords hashFn tree (getFilesToBackup hashFn [] root T [] tree))) ::
        ([] : Store)).map (fun e => e.1)).filter
        (fun k => (prefixBase ++ [name]).isPrefixOf k && k != prefixBase ++ [name]) = [] := by
      rw [List.map_cons, List.filter_cons]
      rw [show ((prefixBase ++ [name]).isPrefixOf (prefixBase ++ [name ++ ".db.gz"]) &&
          (prefixBase ++ [name ++ ".db.gz"] != prefixBase ++ [name])) = false by
        rw [pfx_not_prefix_dbKey]
        rfl]
      rfl
    rw [hone, List.append_nil]
    rw [List.filter_eq_self.mpr ?_]
    · rfl
    · intro a ha
      obtain ⟨b, hb, rfl⟩ := List.mem_map.mp ha
      exact plan_key_under prefixBase name b
  have hget : ∀ b ∈ getFilesToBackup hashFn [] root T [] tree,
      storeGet (planStoreList tree root (prefixBase ++ [name])
          (getFilesToBackup hashFn [] root T [] tree) ++
        [(prefixBase ++ [name ++ ".db.gz"],
          Blob.dbGz (planRecords hashFn tree (getFilesToBackup hashFn [] root T [] tree)))])
        ((prefixBase ++ [name]) ++ batchKeySuffix b) = some (batchBlob tree root b) := by
    intro b hb
    rw [storeGet_append]
    have h := storeGet_planList (fun x => (prefixBase ++ [name]) ++ batchKeySuffix x)
      (fun x => batchBlob tree root x) (getFilesToBackup hashFn [] root T [] tree) b hb hndK
    rw [show planStoreList tree root (prefixBase ++ [name])
        (getFilesToBackup hashFn [] root T [] tree) =
        (getFilesToBackup hashFn [] root T [] tree).map
          (fun x => ((prefixBase ++ [name]) ++ batchKeySuffix x, batchBlob tree root x))
        from rfl]
    rw [h]
  refine ⟨(getFilesToBackup hashFn [] root T [] tree).foldl
    (recoverBatchStep tree root dest) [], ?_, ?_⟩
  · simp only [recoverFilesM]
    rw [if_neg (by simp)]
    show (match remoteDbOf
        (planStoreList tree root (prefixBase ++ [name])
          (getFilesToBackup hashFn [] root T [] tree) ++
         [(prefixBase ++ [name ++ ".db.gz"],
           Blob.dbGz (planRecords hashFn tree (getFilesToBackup hashFn [] root T [] tree)))])
        (prefixBase ++ [name ++ ".db.gz"]) with
      | none => Except.error "failed to download remote db file"
      | some rdb =>
        match recoverObjects
            (planStoreList tree root (prefixBase ++ [name])
              (getFilesToBackup hashFn [] root T [] tree) ++
             [(prefixBase ++ [name ++ ".db.gz"],
               Blob.dbGz (planRecords hashFn tree
                 (getFilesToBackup hashFn [] root T [] tree)))])
            dest (prefixBase ++ [name]) []
            (storeKeysUnder
              (planStoreList tree root (prefixBase ++ [name])
                (getFilesToBackup hashFn [] root T [] tree) ++
               [(prefixBase ++ [name ++ ".db.gz"],
                 Blob.dbGz (planRecords hashFn tree
                   (getFilesToBackup hashFn [] root T [] tree)))])
              (prefixBase ++ [name])) with
        | Except.error e => Except.error e
        | Except.ok fs => Except.ok (fs, rdb)) = _
    rw [hremote]
    show (match recoverObjects
          (planStoreList tree root (prefixBase ++ [name])
            (getFilesToBackup hashFn [] root T [] tree) ++
           [(prefixBase ++ [name ++ ".db.gz"],
             Blob.dbGz (planRecords hashFn tree
               (getFilesToBackup hashFn [] root T [] tree)))])
          dest (prefixBase ++ [name]) []
          (storeKeysUnder
            (planStoreList tree root (prefixBase ++ [name])
              (getFilesToBackup hashFn [] root T [] tree) ++
             [(prefixBase ++ [name ++ ".db.gz"],
               Blob.dbGz (planRecords hashFn tree
                 (getFilesToBackup hashFn [] root T [] tree)))])
            (prefixBase ++ [name])) with
      | Except.error e => Except.error e
      | Except.ok fs => Except.ok (fs,
          planRecords hashFn tree (getFilesToBackup hashFn [] root T [] tree))) = _
    rw [hkeysEq, recoverObjects_batches tree _ dest root (prefixBase ++ [name])
      (getFilesToBackup hashFn [] root T [] tree) [] hget]
  · intro pf hpf hnm
    have hsrc : findFile pf.1 tree = some pf.2 := treeFiles_findFile tree hwf pf hpf
    refine recover_foldl_self tree root dest
      (getFilesToBackup hashFn [] root T [] tree) [] pf.1 pf.2
      (fun b hb => plan_BatchOK hashFn [] root T tree [] b hb)
      (fun b hb => (plan_uploadable hashFn tree root T hwf b hb).2.2)
      (fun b hb => hnoclash b hb pf hpf)
      (plan_paths_nodup hashFn [] root T tree [] hwf)
      hsrc ?_
    have hmem : pf.1 ∈ planPaths (getFilesToBackup hashFn [] root T [] tree) := by
      refine ((plan_paths_perm hashFn [] root T tree []).mem_iff).mpr ?_
      refine List.mem_map.mpr ⟨pf, ?_, rfl⟩
      refine List.mem_filter.mpr ⟨hpf, ?_⟩
      rw [bne_iff_ne]
      exact hnm
    obtain ⟨b, hb, hpmem⟩ := List.mem_flatMap.mp hmem
    obtain ⟨f, hf, hfp⟩ := List.mem_map.mp hpmem
    exact ⟨b, hb, f, hf, hfp⟩

/-- C1 counterexample: a source file literally named `_files.tar.gz`
(not an ignored manifest file) is absent after backup and recovery
into a clean destination — its directory's archive is downloaded to
the same destination path, extracted over it, and then deleted. -/
theorem C1_roundtrip_counterexample :
    (["_files.tar.gz"], mkFileC "_files.tar.gz" 2) ∈ treeFiles c1tree ∧
    (mkFileC "_files.tar.gz" 2).name ≠ "backup.db" ∧
    backupFilesM hashC c1tree [] [] [] ["b"] "n" 10 false false =
      .ok (c1back.1, c1back.2.1, c1back.2.2) ∧
    recoverFilesM c1back.2.1 false [] ["b"] "n" [] false = .ok (c1rec.1, c1rec.2) ∧
    fsFind c1rec.1 ([] ++ ["_files.tar.gz"]) = none :=
  ⟨by decide, by decide, rfl, rfl, by decide⟩

/-- C1 witness: the collision-free hypotheses hold for `c7tree`, and
its round trip restores every file exactly. -/
theorem C1_round_trip_witness :
    treeWFb c7tree = true ∧
    ((getFilesToBackup hash0 [] [] 10 [] c7tree).map batchKeySuffix).Nodup ∧
    (∀ b ∈ getFilesToBackup hash0 [] [] 10 [] c7tree,
      ∀ pf ∈ treeFiles c7tree, batchKeySuffix b ≠ pf.1) ∧
    (∃ fs, recoverFilesM c7res.2.1 false [] [] "n" ["out"] false = .ok (fs, c7res.1) ∧
      ∀ pf ∈ treeFiles c7tree, pf.2.name ≠ "backup.db" →
        fsFind fs (["out"] ++ pf.1) = some (FsVal.plain pf.2.content pf.2.modTimeNs)) :=
  ⟨by decide, by decide, by decide,
   C1_round_trip_no_collision hash0 c7tree [] [] ["out"] "n" 10 c7res.1 c7res.2.1 c7res.2.2
     (by decide) (by decide) (by decide) (by rfl)⟩

/-- C5: every planner batch holding more than one file has total size
at most the threshold; only single-file batches may exceed it. -/
theorem C5_planner_threshold (hashFn : List Nat → Nat) (db : DbState) (root : Path)
    (T : Int) (relDir : Path) (t : FsTree) :
    ∀ b ∈ getFilesToBackup hashFn db root T relDir t,
      1 < b.files.length → b.totalSize ≤ T := by
  refine fsTreeInd
    (fun t => ∀ relDir, ∀ b ∈ getFilesToBackup hashFn db root T relDir t,
      1 < b.files.length → b.totalSize ≤ T)
    (fun ds => ∀ relDir l, l ∈ planSubdirs hashFn db root T relDir ds →
      ∀ b ∈ l, 1 < b.files.length → b.totalSize ≤ T)
    ?_ ?_ ?_ t relDir
  · intro fs ds hQ relDir b hb hlen
    rcases mem_planner_node_cases hashFn db root T relDir fs ds b hb with hph | ⟨l, hl, hbl⟩ | hle
    · rcases phaseA_cases T relDir _ b hph with ⟨f, rfl⟩ | hle
      · simp at hlen
      · exact hle
    · exact hQ relDir l hl b hbl hlen
    · exact hle
  · intro relDir l hl
    simp [planSubdirs] at hl
  · intro n t rest hP hQ relDir l hl b hbl hlen
    unfold planSubdirs at hl
    rcases List.mem_cons.mp hl with rfl | hl
    · exact hP (relDir ++ [n]) b hbl hlen
    · exact hQ relDir l hl b hbl hlen

/-- Witness for `C5_planner_threshold`: the three-file tree rolls into
one three-file batch of size 39 under threshold 100000. -/
theorem C5_planner_threshold_witness :
    ({ root := [], totalSize := 39,
       files := [{ path := ["a.txt"], fileSize := 5, isDirty := true },
                 { path := ["b.txt"], fileSize := 9, isDirty := true },
                 { path := ["c.txt"], fileSize := 25, isDirty := true }] } :
      BackupBatch).totalSize ≤ 100000 :=
  C5_planner_threshold hashC [] [] 100000 [] treeC _ (by decide) (by decide)

/-- `specPop` is the source's pop loop. -/
theorem specPop_eq_popLargest (T : Int) : ∀ (fs : List BFile) (sum : Int),
    specPop T sum fs = popLargest T fs sum
  | [], sum => rfl
  | f :: rest, sum => by
    unfold specPop popLargest
    by_cases h : T < sum
    · simp only [h, if_true, gt_iff_lt, specPop_eq_popLargest T rest (sum - f.fileSize)]
    · simp [h, gt_iff_lt]

/-- C6 counterexample: a directory with files of sizes 7 and 5 under
threshold 3 drains the pop loop completely; the empty remainder is not
emitted as a further batch — only the two single-file pops appear, and
no batch carries the directory's relative root `"."`. -/
theorem C6_counterexample :
    getFilesToBackup hashC [] [] 3 [] c6tree =
      [{ root := ["x.txt"], totalSize := 7,
         files := [{ path := ["x.txt"], fileSize := 7, isDirty := true }] },
       { root := ["y.txt"], totalSize := 5,
         files := [{ path := ["y.txt"], fileSize := 5, isDirty := true }] }] ∧
    (getFilesToBackup hashC [] [] 3 [] c6tree).length = 2 ∧
    (∀ b ∈ getFilesToBackup hashC [] [] 3 [] c6tree, b.root ≠ ([] : Path)) := by
  refine ⟨rfl, rfl, ?_⟩
  decide

/-- C6 amended: for a directory of local files whose sizes sum over
the threshold, the planner sorts by size descending, pops while the
sum exceeds the threshold into single-file batches rooted at each
file's path, and emits the remainder as one further batch only when it
is non-empty, rooted by the single-file rule. -/
theorem C6_oversize_split (hashFn : List Nat → Nat) (db : DbState) (root : Path)
    (T : Int) (relDir : Path) (files : List SrcFile)
    (hsum : T < sumSizes (collectDirFiles hashFn db root relDir files)) :
    getFilesToBackup hashFn db root T relDir (FsTree.node files .nil) =
      specOversizeSplit T relDir (collectDirFiles hashFn db root relDir files) ∧
    (sortSizeDesc (collectDirFiles hashFn db root relDir files)).Perm
      (collectDirFiles hashFn db root relDir files) ∧
    (sortSizeDesc (collectDirFiles hashFn db root relDir files)).Pairwise
      (fun a b => b.fileSize ≤ a.fileSize) ∧
    (∀ b ∈ (specPop T (sumSizes (collectDirFiles hashFn db root relDir files))
        (sortSizeDesc (collectDirFiles hashFn db root relDir files))).1,
      ∃ f, b = { root := f.path, totalSize := f.fileSize, files := [f] }) := by
  set df := collectDirFiles hashFn db root relDir files with hdfeq
  refine ⟨?_, sortSizeDesc_perm df, sortSizeDesc_sorted df, ?_⟩
  · have hnil : getFilesToBackup hashFn db root T relDir (FsTree.node files .nil) =
        phaseA T relDir df := by
      simp [getFilesToBackup, planSubdirs, planCombine]
    rw [hnil]
    unfold phaseA specOversizeSplit
    simp only [specPop_eq_popLargest]
    by_cases hdf : df = []
    · simp [hdf, sortSizeDesc, popLargest, sumSizes]
    · have hgt : ¬ sumSizes df ≤ T := by omega
      simp only [if_neg hdf, if_neg hgt]
  · intro b hb
    rw [specPop_eq_popLargest] at hb
    obtain ⟨f, _, hf⟩ := popLargest_singles T _ _ b hb
    exact ⟨f, hf⟩

/-- Witness for `C6_oversize_split`: the 7-and-5 directory under
threshold 3. -/
theorem C6_oversize_split_witness :
    getFilesToBackup hashC [] [] 3 [] (FsTree.node [mkFileC "x.txt" 7, mkFileC "y.txt" 5] .nil) =
      specOversizeSplit 3 []
        (collectDirFiles hashC [] [] [] [mkFileC "x.txt" 7, mkFileC "y.txt" 5]) :=
  (C6_oversize_split hashC [] [] 3 [] [mkFileC "x.txt" 7, mkFileC "y.txt" 5] (by decide)).1

/-- Witness for `C3_change_detector_cases`: a row exists and the hash
differs, so the detector reports `(true, Change, Hash)`. -/
theorem C3_change_detector_cases_witness :
    doesFileNeedBackup hashC
      [{ path := ["a.txt"], modTimeMs := 1500000000000, hash := 0, batch := ["a.txt"] }]
      ["a.txt"] (mkFileC "a.txt" 5) = (true, .opChange, .rHash) :=
  ((C3_change_detector_cases hashC
      [{ path := ["a.txt"], modTimeMs := 1500000000000, hash := 0, batch := ["a.txt"] }]
      ["a.txt"] (mkFileC "a.txt" 5)).2 _ rfl).2.1 (by decide)

end Backup
